import Mathlib

/-!
# Verification of the registry snapshot / resolution engine and the temporal closure engine

Shallow embedding of the core algorithms of the julia-package-evolution scripts:

* `extract_dependencies.py` — registry package dependency extraction
  (`RegistryPackage.extract_dependencies`, `_version_in_range`, `extract_registry_snapshot`),
  including a model of the relevant parts of the external `semantic_version`
  Python library (version 2.10.0): `Version.coerce` and `SimpleSpec`.
* `extract_metadata_dependencies.py` — legacy METADATA.jl extraction
  (`MetadataPackage.extract_dependencies` with its `version_tuple` comparator).
* `test_all_packages.py` — the historical-mode resolver
  (`extract_dependencies_for_version`).
* `temporal_viz_python.py` — BFS transitive closure
  (`compute_recursive_dependencies`), union graph
  (`create_union_dependency_graph`) and clustering
  (`cluster_by_first_appearance_in_deps`).

Python strings are modelled as `List Char`; Python dicts as association lists
with insertion-order update semantics; scipy sparse 0/1 matrices as finite sets
of index pairs together with a bound `n` (the shape).
-/

namespace PkgEvo

/-- Python `str`, modelled as a list of characters. -/
abbrev Str := List Char

/-! ## Generic string helpers (Python `str` methods) -/

/-- Python `s.split(sep)` for a one-character separator: always returns a
non-empty list, empty pieces included. -/
def splitOnChar (c : Char) : Str → List Str
  | [] => [[]]
  | a :: rest =>
    if a = c then [] :: splitOnChar c rest
    else
      match splitOnChar c rest with
      | [] => [[a]]
      | s :: ss => (a :: s) :: ss

/-- Python `s.split(sep, 1)` for a one-character separator: `none` when the
separator does not occur, otherwise the pieces before and after its first
occurrence. -/
def splitOnce (c : Char) : Str → Option (Str × Str)
  | [] => none
  | a :: rest =>
    if a = c then some ([], rest)
    else (splitOnce c rest).map (fun p => (a :: p.1, p.2))

/-- Python `s.split(sep)[0]`: the prefix before the first occurrence of `c`. -/
def takeUntil (c : Char) : Str → Str
  | [] => []
  | a :: rest => if a = c then [] else a :: takeUntil c rest

/-- Python `int` applied to a digit string (leading zeros allowed); the empty
string gives `0`, matching the `int(x) if x else 0` idiom of the source. -/
def digitsToNat (s : Str) : Nat :=
  s.foldl (fun n c => 10 * n + (c.toNat - '0'.toNat)) 0

/-- Leading run of decimal digits together with the remaining characters. -/
def takeDigits : Str → Str × Str
  | [] => ([], [])
  | c :: rest =>
    if c.isDigit then
      let (d, r) := takeDigits rest
      (c :: d, r)
    else ([], c :: rest)

/-- Python `s.strip()`: remove leading and trailing whitespace. -/
def pyStrip (s : Str) : Str :=
  ((s.dropWhile Char.isWhitespace).reverse.dropWhile Char.isWhitespace).reverse

/-- Worker for `splitWhitespace`; `acc` holds the current token reversed. -/
def splitWsAux : Str → Str → List Str
  | [], acc => if acc = [] then [] else [acc.reverse]
  | c :: rest, acc =>
    if c.isWhitespace then
      if acc = [] then splitWsAux rest []
      else acc.reverse :: splitWsAux rest []
    else splitWsAux rest (c :: acc)

/-- Python `s.split()` with no argument: split on whitespace runs, dropping
empty pieces. -/
def splitWhitespace (s : Str) : List Str := splitWsAux s []

/-- Python `s.lower()` (ASCII case folding, which is all the sources use). -/
def pyLower (s : Str) : Str := s.map Char.toLower

/-! ## Python dicts as insertion-ordered association lists -/

/-- Assign `d[k] = v`: overwrite in place when the key exists, append
otherwise — Python dicts preserve insertion order. -/
def dictSet {α : Type} (d : List (Str × α)) (k : Str) (v : α) : List (Str × α) :=
  match d with
  | [] => [(k, v)]
  | (k0, v0) :: rest => if k0 = k then (k, v) :: rest else (k0, v0) :: dictSet rest k v

/-- Python `d.update(new)`: fold `dictSet` over the new entries in order. -/
def dictUpdate {α : Type} (d new : List (Str × α)) : List (Str × α) :=
  new.foldl (fun acc p => dictSet acc p.1 p.2) d

/-- Python `d.get(k)` / `d[k]` on a dict with unique keys: first matching
entry. -/
def dictGet {α : Type} (d : List (Str × α)) (k : Str) : Option α :=
  match d with
  | [] => none
  | (k0, v0) :: rest => if k0 = k then some v0 else dictGet rest k

/-! ## The `semantic_version` library (version 2.10.0), part 1: versions

`Version.coerce` first matches the regular expression
`^\d+(?:\.\d+(?:\.\d+)?)?` against the string (raising `ValueError`, modelled
as `none`, when the string does not start with a digit), pads the matched
components to a major/minor/patch triple, and turns the unmatched remainder —
after replacing every character outside `[a-zA-Z0-9+.-]` by a dash — into
prerelease and build components. -/

/-- A parsed `semantic_version.Version`: numeric triple plus prerelease and
build identifier lists (each identifier a string). -/
structure PyVersion where
  major : Nat
  minor : Nat
  patch : Nat
  prerelease : List Str
  build : List Str
  deriving DecidableEq, Repr

/-- The `re.sub(r'[^a-zA-Z0-9+.-]', '-', rest)` cleanup step of
`Version.coerce`. -/
def sanitizeChar (c : Char) : Char :=
  if c.isAlphanum ∨ c = '+' ∨ c = '.' ∨ c = '-' then c else '-'

/-- Identifier lists from a prerelease or build string: Python
`tuple(s.split('.')) if s else ()`. -/
def identsOf (s : Str) : List Str :=
  if s = [] then [] else splitOnChar '.' s

/-- The numeric part matched by `^\d+(?:\.\d+(?:\.\d+)?)?`: the coerced
triple and the unmatched remainder; `none` models the `ValueError` raised
when the string lacks a leading numerical component. -/
def coerceCore (s : Str) : Option (Nat × Nat × Nat × Str) :=
  let p1 := takeDigits s
  if p1.1 = [] then none
  else
    match p1.2 with
    | '.' :: r2 =>
      let p2 := takeDigits r2
      if p2.1 = [] then some (digitsToNat p1.1, 0, 0, p1.2)
      else
        match p2.2 with
        | '.' :: r4 =>
          let p3 := takeDigits r4
          if p3.1 = [] then some (digitsToNat p1.1, digitsToNat p2.1, 0, p2.2)
          else some (digitsToNat p1.1, digitsToNat p2.1, digitsToNat p3.1, p3.2)
        | _ => some (digitsToNat p1.1, digitsToNat p2.1, 0, p2.2)
    | _ => some (digitsToNat p1.1, 0, 0, p1.2)

/-- Split the sanitized remainder into prerelease and build strings, following
the `rest[0]` case cascade of `Version.coerce`. -/
def restToPreBuild (rest : Str) : Str × Str :=
  match rest with
  | [] => ([], [])
  | '+' :: b => ([], b)
  | '.' :: b => ([], b)
  | '-' :: r =>
    match splitOnce '+' r with
    | some (pre, b) => (pre, b)
    | none => (r, [])
  | _ =>
    match splitOnce '+' rest with
    | some (pre, b) => (pre, b)
    | none => (rest, [])

/-- `semantic_version.Version.coerce`; `none` models the raised
`ValueError`. -/
def coerce (s : Str) : Option PyVersion :=
  (coerceCore s).map (fun q =>
    let rest := (q.2.2.2).map sanitizeChar
    let pb := restToPreBuild rest
    { major := q.1, minor := q.2.1, patch := q.2.2.1,
      prerelease := identsOf pb.1,
      build := identsOf (pb.2.map (fun c => if c = '+' then '.' else c)) })

/-- Integer comparison, as Python compares `int` values. -/
def cmpN (a b : Nat) : Ordering :=
  if a < b then .lt else if b < a then .gt else .eq

/-- Code-point string comparison, as Python compares `str` values. -/
def cmpChars : Str → Str → Ordering
  | [], [] => .eq
  | [], _ :: _ => .lt
  | _ :: _, [] => .gt
  | a :: as, b :: bs =>
    if a.toNat < b.toNat then .lt
    else if b.toNat < a.toNat then .gt
    else cmpChars as bs

/-- Semver prerelease identifier comparison: numeric identifiers compare as
integers and sort before alphanumeric ones; alphanumeric ones compare as
strings. -/
def cmpIdent (a b : Str) : Ordering :=
  if a ≠ [] ∧ a.all Char.isDigit then
    if b ≠ [] ∧ b.all Char.isDigit then cmpN (digitsToNat a) (digitsToNat b)
    else .lt
  else if b ≠ [] ∧ b.all Char.isDigit then .gt
  else cmpChars a b

/-- Identifier-list comparison: componentwise, a strict prefix sorts first. -/
def cmpIdentList : List Str → List Str → Ordering
  | [], [] => .eq
  | [], _ :: _ => .lt
  | _ :: _, [] => .gt
  | a :: as, b :: bs =>
    match cmpIdent a b with
    | .eq => cmpIdentList as bs
    | o => o

/-- Semver precedence: compare the triples, then prereleases (a release sorts
after any prerelease of the same triple); build metadata is ignored. -/
def cmpVer (v w : PyVersion) : Ordering :=
  match cmpN v.major w.major with
  | .eq =>
    match cmpN v.minor w.minor with
    | .eq =>
      match cmpN v.patch w.patch with
      | .eq =>
        match v.prerelease, w.prerelease with
        | [], [] => .eq
        | [], _ :: _ => .gt
        | _ :: _, [] => .lt
        | p, q => cmpIdentList p q
      | o => o
    | o => o
  | o => o

/-- `Version.next_major` of the library: bump major (a prerelease of
`x.0.0` truncates instead). -/
def nextMajor (v : PyVersion) : PyVersion :=
  if v.prerelease ≠ [] ∧ v.minor = 0 ∧ v.patch = 0 then
    ⟨v.major, 0, 0, [], []⟩
  else ⟨v.major + 1, 0, 0, [], []⟩

/-- `Version.next_minor` of the library: bump minor (a prerelease of
`x.y.0` truncates instead). -/
def nextMinor (v : PyVersion) : PyVersion :=
  if v.prerelease ≠ [] ∧ v.patch = 0 then
    ⟨v.major, v.minor, 0, [], []⟩
  else ⟨v.major, v.minor + 1, 0, [], []⟩

/-- `Version.next_patch` of the library (only reachable on prerelease-free
targets in the spec parser). -/
def nextPatch (v : PyVersion) : PyVersion :=
  ⟨v.major, v.minor, v.patch + 1, [], []⟩

/-- `Version.truncate()`: drop prerelease and build. -/
def truncateVer (v : PyVersion) : PyVersion :=
  ⟨v.major, v.minor, v.patch, [], []⟩

/-! ## The `semantic_version` library, part 2: `SimpleSpec`

A spec expression is split on commas; each block must match
`^(<|<=|==|=|!=|>=|>|~|\^|~=)?(NUMBER)(\.NUMBER(\.NUMBER)?)?(-PRE)?(\+BUILD)?$`
with `NUMBER = \*|0|[1-9][0-9]*`, and is turned into comparison ranges
against a target version; partial versions (missing minor or patch) widen
the upper-bound and equality operators to whole major/minor ranges. -/

/-- Comparison operator of a `Range`. -/
inductive ROp
  | eq | ne | lt | lte | gt | gte
  deriving DecidableEq, Repr

/-- Clause tree produced by `SimpleSpec.Parser.parse_block` (conjunctions for
partial `==`/`^`/`~`, disjunctions for partial `!=`). -/
inductive Clause
  | atom (op : ROp) (target : PyVersion)
  | and2 (a b : Clause)
  | or2 (a b : Clause)
  deriving DecidableEq, Repr

/-- Operator prefix of a spec block; an absent prefix means `==`, and `=` is
an alias for `==`. -/
inductive SpecOp
  | eq | ne | lt | lte | gt | gte | caret | tilde | tildeArrow
  deriving DecidableEq, Repr

/-- Parse the operator prefix of a block (two-character operators before
their one-character prefixes, as the regex alternation with backtracking
resolves them; an absent prefix means `==`, and `=` is an alias for `==`). -/
def parseSpecOp (s : Str) : SpecOp × Str :=
  match s with
  | [] => (.eq, [])
  | [c] =>
    if c = '<' then (.lt, [])
    else if c = '>' then (.gt, [])
    else if c = '=' then (.eq, [])
    else if c = '~' then (.tilde, [])
    else if c = '^' then (.caret, [])
    else (.eq, [c])
  | c1 :: c2 :: rest =>
    if c1 = '<' then (if c2 = '=' then (.lte, rest) else (.lt, c2 :: rest))
    else if c1 = '>' then (if c2 = '=' then (.gte, rest) else (.gt, c2 :: rest))
    else if c1 = '=' then (if c2 = '=' then (.eq, rest) else (.eq, c2 :: rest))
    else if c1 = '!' then
      (if c2 = '=' then (.ne, rest) else (.eq, c1 :: c2 :: rest))
    else if c1 = '~' then
      (if c2 = '=' then (.tildeArrow, rest) else (.tilde, c2 :: rest))
    else if c1 = '^' then (.caret, c2 :: rest)
    else (.eq, c1 :: c2 :: rest)

/-- Parse one `NUMBER` token: `*` (wildcard, `none`) or a numeral without
leading zeros. -/
def parseNumberTok : Str → Option (Option Nat × Str)
  | '*' :: r => some (none, r)
  | '0' :: r => some (some 0, r)
  | c :: r =>
    if c.isDigit ∧ c ≠ '0' then
      let p := takeDigits (c :: r)
      some (some (digitsToNat p.1), p.2)
    else none
  | [] => none

/-- Fully parsed version part of a spec block: up to three components (each
possibly the `*` wildcard) plus optional prerelease and build strings. -/
structure SpecTok where
  major : Option Nat
  minor : Option (Option Nat)
  patch : Option (Option Nat)
  prerel : Option Str
  build : Option Str
  deriving DecidableEq, Repr

/-- Characters allowed in prerelease and build parts of a block:
`[a-z0-9A-Z.-]`. -/
def isPreChar (c : Char) : Bool := c.isAlphanum ∨ c = '.' ∨ c = '-'

/-- Parse the optional `-PRE` and `+BUILD` tail of a block; the block must be
consumed completely. -/
def parseSpecTail : Str → Option (Option Str × Option Str)
  | [] => some (none, none)
  | '-' :: r =>
    match splitOnce '+' r with
    | some (pre, b) =>
      if pre.all isPreChar ∧ b.all isPreChar then some (some pre, some b) else none
    | none => if r.all isPreChar then some (some r, none) else none
  | '+' :: r => if r.all isPreChar then some (none, some r) else none
  | _ => none

/-- Parse the version part of a block (after the operator prefix). -/
def parseSpecTok (s : Str) : Option SpecTok :=
  match parseNumberTok s with
  | none => none
  | some (maj, r1) =>
    match r1 with
    | '.' :: r2 =>
      match parseNumberTok r2 with
      | none => none
      | some (minr, r3) =>
        match r3 with
        | '.' :: r4 =>
          match parseNumberTok r4 with
          | none => none
          | some (pat, r5) =>
            (parseSpecTail r5).map (fun t => ⟨maj, some minr, some pat, t.1, t.2⟩)
        | _ =>
          (parseSpecTail r3).map (fun t => ⟨maj, some minr, none, t.1, t.2⟩)
    | _ =>
      (parseSpecTail r1).map (fun t => ⟨maj, none, none, t.1, t.2⟩)

/-- `SimpleSpec.Parser.parse_block` clause generation from an operator and a
parsed version token.  A `*` component counts as absent (Python maps both to
`None`); `none` models the `ValueError` cases (a partial version with
prerelease or build, and operators other than `==`/`>=` on a bare `*`). -/
def buildClause (op : SpecOp) (t : SpecTok) : Option Clause :=
  let minOpt := t.minor.bind (fun x => x)
  let patOpt := t.patch.bind (fun x => x)
  let isPartial := t.major = none ∨ minOpt = none ∨ patOpt = none
  if isPartial ∧ (t.prerel ≠ none ∨ t.build ≠ none) then none
  else
    match t.major with
    | none =>
      match op with
      | .eq => some (.atom .gte ⟨0, 0, 0, [], []⟩)
      | .gte => some (.atom .gte ⟨0, 0, 0, [], []⟩)
      | _ => none
    | some maj =>
      match minOpt with
      | none =>
        let target : PyVersion := ⟨maj, 0, 0, [], []⟩
        match op with
        | .eq => some (.and2 (.atom .gte target) (.atom .lt (nextMajor target)))
        | .ne => some (.or2 (.atom .lt target) (.atom .gte (nextMajor target)))
        | .gt => some (.atom .gte (nextMajor target))
        | .gte => some (.atom .gte target)
        | .lt => some (.atom .lt target)
        | .lte => some (.atom .lt (nextMajor target))
        | .caret => some (.and2 (.atom .gte target) (.atom .lt (nextMajor target)))
        | .tilde => some (.and2 (.atom .gte target) (.atom .lt (nextMajor target)))
        | .tildeArrow => none
      | some minr =>
        match patOpt with
        | none =>
          let target : PyVersion := ⟨maj, minr, 0, [], []⟩
          match op with
          | .eq => some (.and2 (.atom .gte target) (.atom .lt (nextMinor target)))
          | .ne => some (.or2 (.atom .lt target) (.atom .gte (nextMinor target)))
          | .gt => some (.atom .gte (nextMinor target))
          | .gte => some (.atom .gte target)
          | .lt => some (.atom .lt target)
          | .lte => some (.atom .lt (nextMinor target))
          | .caret =>
            some (.and2 (.atom .gte target)
              (.atom .lt (if maj ≠ 0 then nextMajor target
                else if minr ≠ 0 then nextMinor target
                else nextMajor target)))
          | .tilde => some (.and2 (.atom .gte target) (.atom .lt (nextMinor target)))
          | .tildeArrow => some (.and2 (.atom .gte target) (.atom .lt (nextMajor target)))
        | some pat =>
          let target : PyVersion :=
            ⟨maj, minr, pat,
              identsOf (t.prerel.getD []),
              identsOf ((t.build.getD []).map (fun c => if c = '+' then '.' else c))⟩
          match op with
          | .eq => some (.atom .eq target)
          | .ne => some (.atom .ne target)
          | .gt => some (.atom .gt target)
          | .gte => some (.atom .gte target)
          | .lt => some (.atom .lt target)
          | .lte => some (.atom .lte target)
          | .caret =>
            some (.and2 (.atom .gte target)
              (.atom .lt (if maj ≠ 0 then nextMajor (truncateVer target)
                else if minr ≠ 0 then nextMinor (truncateVer target)
                else nextPatch (truncateVer target))))
          | .tilde => some (.and2 (.atom .gte target) (.atom .lt (nextMinor (truncateVer target))))
          | .tildeArrow => some (.and2 (.atom .gte target) (.atom .lt (nextMinor (truncateVer target))))

/-- Parse one comma-separated block of a simple spec. -/
def parseBlock (s : Str) : Option Clause :=
  let p := parseSpecOp s
  (parseSpecTok p.2).bind (buildClause p.1)

/-- `SimpleSpec(expression)`: split on commas and parse every block; `none`
models the raised `ValueError`. -/
def simpleSpec (s : Str) : Option (List Clause) :=
  (splitOnChar ',' s).mapM parseBlock

/-- A single `Range` comparison against a version.  Build metadata of the
tested version is ignored unless the target itself carries build metadata
(the library's implicit/strict build policy); prerelease handling is the
natural semver ordering. -/
def rangeMatch (op : ROp) (target : PyVersion) (v : PyVersion) : Bool :=
  let v := if target.build = [] then ⟨v.major, v.minor, v.patch, v.prerelease, []⟩ else v
  match op with
  | .eq => v = target
  | .ne => v ≠ target
  | .lt => cmpVer v target = .lt
  | .lte => cmpVer v target = .lt ∨ cmpVer v target = .eq
  | .gt => cmpVer v target = .gt
  | .gte => cmpVer v target = .gt ∨ cmpVer v target = .eq

/-- Evaluate a clause tree against a version. -/
def clauseMatch : Clause → PyVersion → Bool
  | .atom op target, v => rangeMatch op target v
  | .and2 a b, v => clauseMatch a v && clauseMatch b v
  | .or2 a b, v => clauseMatch a v || clauseMatch b v

/-- `version in spec`: every comma-separated clause must match. -/
def specMatch (cs : List Clause) (v : PyVersion) : Bool :=
  cs.all (fun c => clauseMatch c v)

/-! ## `RegistryPackage._version_in_range` (extract_dependencies.py 137-156) -/

/-- `_version_in_range(version, version_range)`: coerce the version; on a
hyphen split into start/end and test `SimpleSpec(f">={start},<={end}")`,
otherwise test `SimpleSpec(f"={version_range}")`; any failure falls back to
literal string equality. -/
def versionInRange (version rangeExpr : Str) : Bool :=
  match coerce version with
  | none => version = rangeExpr
  | some cv =>
    match splitOnce '-' rangeExpr with
    | some (s, e) =>
      match simpleSpec (('>' :: '=' :: s) ++ (',' :: '<' :: '=' :: e)) with
      | some cs => specMatch cs cv
      | none => version = rangeExpr
    | none =>
      match simpleSpec ('=' :: rangeExpr) with
      | some cs => specMatch cs cv
      | none => version = rangeExpr

/-! ## Latest-version selection

Python `max(iterable, key=k)` keeps the first item and replaces it whenever a
later item's key compares strictly greater; a raised exception while
computing a key aborts the whole call (`none`). -/

/-- `max(l, key=key)` where the key itself may raise (`none`): the first item
whose key is maximal, or `none` on an empty list or a raising key. -/
def pyMaxByOpt {κ : Type} (beats : κ → κ → Bool) (key : Str → Option κ) (l : List Str) :
    Option Str :=
  match l with
  | [] => none
  | x :: xs =>
    match key x with
    | none => none
    | some kx =>
      (xs.foldl
        (fun acc item =>
          acc.bind (fun best =>
            (key item).map (fun ki => if beats best.2 ki then (item, ki) else best)))
        (some (x, kx))).map Prod.fst

/-- Registry comparator: `max(versions, key=lambda v: Version.coerce(v))`
(extract_dependencies.py line 119). -/
def selectLatestRegistry (versions : List Str) : Option Str :=
  pyMaxByOpt (fun kb ki => cmpVer ki kb = .gt) coerce versions

/-- `version_tuple` of extract_metadata_dependencies.py (lines 93-113): strip
`+`/`-` suffixes, map digit-free strings to `(0,0,0)`, otherwise take the
digit runs of the dot components and right-pad with zeros to three
components. -/
def legacyVersionTuple (v : Str) : List Nat :=
  let cleanV := takeUntil '-' (takeUntil '+' v)
  if (cleanV ≠ [] ∧ cleanV.all Char.isAlpha) ∨ ¬ cleanV.any Char.isDigit then
    [0, 0, 0]
  else
    let parts := (splitOnChar '.' cleanV).map (fun part => digitsToNat (part.filter Char.isDigit))
    parts ++ List.replicate (3 - parts.length) 0

/-- Python tuple/list `<` on integer sequences: lexicographic, a strict
prefix sorts first. -/
def pyListLt : List Nat → List Nat → Bool
  | [], [] => false
  | [], _ :: _ => true
  | _ :: _, [] => false
  | a :: as, b :: bs => if a < b then true else if b < a then false else pyListLt as bs

/-- Legacy comparator: `max(versions, key=version_tuple)`
(extract_metadata_dependencies.py line 115). -/
def selectLatestLegacy (versions : List Str) : Option Str :=
  pyMaxByOpt (fun kb ki => pyListLt kb ki) (fun v => some (legacyVersionTuple v)) versions

/-! ## Dependency resolution (extract_dependencies.py 97-135 and
test_all_packages.py 259-320) -/

/-- A value of the parsed `Deps.toml` table: either a sub-table
(range → {uuid: name}) or some other TOML value (skipped by the
`isinstance(deps, dict)` guards). -/
inductive TomlVal
  | table (entries : List (Str × Str))
  | other
  deriving DecidableEq, Repr

/-- `RegistryPackage.extract_dependencies`, default mode: with no versions,
flatten every sub-table; otherwise select the latest version with the
registry comparator (a raised `ValueError` is caught by the enclosing
handler, which returns the empty dict) and merge every sub-table whose range
matches it. -/
def registryExtractDependencies (depsData : List (Str × TomlVal)) (versionKeys : List Str) :
    List (Str × Str) :=
  if versionKeys = [] then
    depsData.foldl
      (fun acc e => match e.2 with | .table t => dictUpdate acc t | .other => acc) []
  else
    match selectLatestRegistry versionKeys with
    | none => []
    | some latest =>
      depsData.foldl
        (fun acc e =>
          match e.2 with
          | .table t => if versionInRange latest e.1 then dictUpdate acc t else acc
          | .other => acc) []

/-- `extract_dependencies_for_version` (test_all_packages.py 293-313),
historical mode: pre-merge the sub-table keyed by the target's bare major
version and the one keyed by the literal token `"1"`, then merge every other
sub-table whose range matches the target. -/
def extractDepsForVersion (depsData : List (Str × TomlVal)) (targetVersion : Str) :
    List (Str × Str) :=
  let majorVersion := (splitOnChar '.' targetVersion).headD []
  let step1 :=
    match dictGet depsData majorVersion with
    | some (.table t) => dictUpdate [] t
    | _ => []
  let step2 :=
    match dictGet depsData ['1'] with
    | some (.table t) => dictUpdate step1 t
    | _ => step1
  depsData.foldl
    (fun acc e =>
      if e.1 = majorVersion ∨ e.1 = ['1'] then acc
      else
        match e.2 with
        | .table t => if versionInRange targetVersion e.1 then dictUpdate acc t else acc
        | .other => acc) step2

/-! ## Legacy requires-file parsing (extract_metadata_dependencies.py 124-154) -/

/-- Process one line of a `requires` file into the accumulated dependency
dict: strip, skip blanks and `#` comments, take the first whitespace token as
the name, skip `julia`, and store it under a synthesized
`metadata-<lowercase name>` identifier. -/
def requiresLineStep (deps : List (Str × Str)) (line : Str) : List (Str × Str) :=
  let line := pyStrip line
  if line = [] ∨ line.head? = some '#' then deps
  else
    match splitWhitespace line with
    | [] => deps
    | depName :: _ =>
      if depName = ['j', 'u', 'l', 'i', 'a'] then deps
      else dictSet deps (('m' :: 'e' :: 't' :: 'a' :: 'd' :: 'a' :: 't' :: 'a' :: '-' :: []) ++ pyLower depName) depName

/-- Parse a whole `requires` file (`MetadataPackage.extract_dependencies`,
lines 131-149). -/
def parseRequires (lines : List Str) : List (Str × Str) :=
  lines.foldl requiresLineStep []

/-- `MetadataPackage.extract_dependencies`: no versions means no
dependencies; otherwise read the `requires` file of the latest version
(selected with `version_tuple`) and parse it; a missing file gives the empty
dict. -/
def metadataExtractDependencies (versionKeys : List Str) (requiresOf : Str → Option (List Str)) :
    List (Str × Str) :=
  if versionKeys = [] then []
  else
    match selectLatestLegacy versionKeys with
    | none => []
    | some latest =>
      match requiresOf latest with
      | none => []
      | some lines => parseRequires lines

/-! ## Snapshot building (extract_dependencies.py 269-317)

A package directory is abstracted by what its handler's extraction methods
return: the detected format (`unknown` when `create_package_handler` finds no
metadata file of either naming scheme), the optional metadata, and the
version/dependency/compatibility payloads, plus the jll flag derived from the
directory path. -/

/-- Registry schema variant as reported by `create_package_handler`. -/
inductive PkgFormat
  | late | early | unknown
  deriving DecidableEq, Repr

/-- Package metadata extracted from `Package.toml` / `package.toml`. -/
structure PkgMetadata where
  name : Option String
  uuid : Option String
  repo : Option String
  deriving DecidableEq, Repr

/-- Abstraction of one package directory in a snapshot walk. -/
structure PkgDirInfo where
  name : String
  format : PkgFormat
  metadata : Option PkgMetadata
  versions : List (String × String)
  dependencies : List (String × String)
  compatibility : List (String × String)
  isJll : Bool
  deriving DecidableEq

/-- The record stored in `snapshot["packages"][name]`. -/
structure PackageRecord where
  metadata : PkgMetadata
  versions : List (String × String)
  compatibility : List (String × String)
  format : PkgFormat
  isJll : Bool
  deriving DecidableEq

/-- Accumulated snapshot state: `packages`, `dependencies` and
`format_stats`. -/
structure Snapshot where
  packages : List (String × PackageRecord)
  dependencies : List (String × List (String × String))
  statsLate : Nat
  statsEarly : Nat
  statsUnknown : Nat
  deriving DecidableEq

/-- The empty snapshot (commit id omitted: it never changes in the loop). -/
def emptySnapshot : Snapshot := ⟨[], [], 0, 0, 0⟩

/-- Read one format counter. -/
def Snapshot.statOf (s : Snapshot) (f : PkgFormat) : Nat :=
  match f with
  | .late => s.statsLate
  | .early => s.statsEarly
  | .unknown => s.statsUnknown

/-- Increment one format counter. -/
def Snapshot.bumpStat (s : Snapshot) (f : PkgFormat) : Snapshot :=
  match f with
  | .late => { s with statsLate := s.statsLate + 1 }
  | .early => { s with statsEarly := s.statsEarly + 1 }
  | .unknown => { s with statsUnknown := s.statsUnknown + 1 }

/-- Dict assignment for `String`-keyed association lists (Python dict
semantics, as `dictSet`). -/
def dictSetS {α : Type} (d : List (String × α)) (k : String) (v : α) : List (String × α) :=
  match d with
  | [] => [(k, v)]
  | (k0, v0) :: rest => if k0 = k then (k, v) :: rest else (k0, v0) :: dictSetS rest k v

/-- Dict lookup for `String`-keyed association lists. -/
def dictGetS {α : Type} (d : List (String × α)) (k : String) : Option α :=
  match d with
  | [] => none
  | (k0, v0) :: rest => if k0 = k then some v0 else dictGetS rest k

/-- The loop body of `extract_registry_snapshot` (lines 288-315): bump the
format counter, skip the package when no handler exists or when metadata
extraction returned `None`, otherwise store its record and dependencies. -/
def processPackageDir (s : Snapshot) (d : PkgDirInfo) : Snapshot :=
  let s := s.bumpStat d.format
  if d.format = .unknown then s
  else
    match d.metadata with
    | none => s
    | some m =>
      { s with
        packages := dictSetS s.packages d.name
          ⟨m, d.versions, d.compatibility, d.format, d.isJll⟩,
        dependencies := dictSetS s.dependencies d.name d.dependencies }

/-- `extract_registry_snapshot`: fold the loop body over all package
directories. -/
def extractRegistrySnapshot (dirs : List PkgDirInfo) : Snapshot :=
  dirs.foldl processPackageDir emptySnapshot

/-! ## Temporal closure engine (temporal_viz_python.py)

A sparse 0/1 adjacency matrix is a bound `n` (the shape) plus the set of
index pairs holding a nonzero entry. -/

/-- A square scipy CSR 0/1 matrix: shape bound and nonzero positions. -/
structure AdjMatrix where
  n : Nat
  entries : Finset (Nat × Nat)

/-- `row.nonzero()` column set of row `i`. -/
def rowNonzero (A : AdjMatrix) (i : Nat) : Finset Nat :=
  (A.entries.filter (fun p => p.1 = i)).image Prod.snd

/-- `row.nonzero()` columns in ascending order, the order scipy reports and
the loop iterates them. -/
def rowCols (A : AdjMatrix) (i : Nat) : List Nat :=
  (rowNonzero A i).sort (· ≤ ·)

/-- Fuel that strictly dominates the number of loop iterations of the BFS
(each iteration pops one queued index, and at most
`2 * |entries|` indices are ever queued). -/
def bfsFuel (A : AdjMatrix) : Nat := 2 * A.entries.card + 1

/-- The `while queue` loop of `compute_recursive_dependencies` (lines
96-105): pop the front index; if it is inside the bound, add its unseen
out-neighbors to the set and the queue. -/
def bfsAux (A : AdjMatrix) : Nat → List Nat → Finset Nat → Finset Nat
  | 0, _, deps => deps
  | _ + 1, [], deps => deps
  | fuel + 1, current :: rest, deps =>
    if current < A.n then
      bfsAux A fuel (rest ++ (rowCols A current).filter (fun dep => dep ∉ deps))
        (deps ∪ rowNonzero A current)
    else bfsAux A fuel rest deps

/-- `compute_recursive_dependencies(adj_matrix, package_idx)` (lines 79-108):
empty for a start index outside the bound, otherwise BFS seeded with the
start row's out-neighbors (the start node itself is not included). -/
def computeRecursiveDependencies (A : AdjMatrix) (packageIdx : Nat) : Finset Nat :=
  if A.n ≤ packageIdx then ∅
  else bfsAux A (bfsFuel A) (rowCols A packageIdx) (rowNonzero A packageIdx)

/-- One-step dependency relation of a matrix: a row inside the bound to one
of its nonzero columns. -/
def stepRel (A : AdjMatrix) (u v : Nat) : Prop :=
  u < A.n ∧ (u, v) ∈ A.entries

/-- One time slice as fed to `create_union_dependency_graph`: the closure set
(`temporal_deps_sets` value) and the per-slice subgraph adjacency
(`temporal_graphs` value, a 0/1 matrix). -/
structure TimeSlice where
  deps : Finset Nat
  adj : Finset (Nat × Nat)
  deriving DecidableEq

/-- `all_deps_union` (lines 189-191): union of the per-slice closure sets in
processing order. -/
def allDepsUnion (slices : List TimeSlice) : Finset Nat :=
  slices.foldl (fun acc s => acc ∪ s.deps) ∅

/-- `union_A` (lines 200-203): elementwise maximum — logical OR for 0/1
matrices — of the per-slice adjacencies. -/
def unionAdj (slices : List TimeSlice) : Finset (Nat × Nat) :=
  slices.foldl (fun acc s => acc ∪ s.adj) ∅

/-- `deps_list = sorted(list(all_deps_union))` (line 208). -/
def depsListOf (slices : List TimeSlice) : List Nat :=
  (allDepsUnion slices).sort (· ≤ ·)

/-- `orig_to_graph` (line 210): dense index of an original index. -/
def origToGraph (slices : List TimeSlice) (orig : Nat) : Nat :=
  (depsListOf slices).indexOf orig

/-- `union_subgraph` (lines 215-223): for every original row in the node
list, re-index each OR-edge whose column is also a node. -/
def unionSubgraph (slices : List TimeSlice) : Finset (Nat × Nat) :=
  ((unionAdj slices).filter
      (fun p => p.1 ∈ allDepsUnion slices ∧ p.2 ∈ allDepsUnion slices)).image
    (fun p => (origToGraph slices p.1, origToGraph slices p.2))

/-! ## Clustering (temporal_viz_python.py 232-279)

Time-slice labels are dates such as `"2020-01"`, whose lexicographic string
order is their chronological order; they are modelled as natural numbers. -/

/-- Dict lookup among slices keyed by label. -/
def sliceGet (slices : List (Nat × Finset Nat)) (p : Nat) : Option (Finset Nat) :=
  match slices with
  | [] => none
  | (p0, s0) :: rest => if p0 = p then some s0 else sliceGet rest p

/-- `first_appearance` (lines 236-248): walk the labels in ascending sorted
order and record, per node, the first slice whose closure contains it. -/
def firstAppearance (slices : List (Nat × Finset Nat)) (dep : Nat) : Option Nat :=
  ((slices.map Prod.fst).mergeSort (fun a b => a ≤ b)).find?
    (fun p => match sliceGet slices p with
      | some s => dep ∈ s
      | none => false)

/-- The dict-and-counter loop of lines 251-266: walk the node list; a node
with a recorded first appearance reuses the cluster id of that date or
claims the next fresh id; a node never seen gets cluster 0. -/
def assignClusters (fa : Nat → Option Nat) :
    List Nat → List (Nat × Nat) → Nat → List Nat
  | [], _, _ => []
  | n :: rest, dateToCluster, nextId =>
    match fa n with
    | some d =>
      match (dateToCluster.find? (fun q => q.1 = d)).map Prod.snd with
      | some cid => cid :: assignClusters fa rest dateToCluster nextId
      | none => nextId :: assignClusters fa rest ((d, nextId) :: dateToCluster) (nextId + 1)
    | none => 0 :: assignClusters fa rest dateToCluster nextId

/-- `cluster_by_first_appearance_in_deps(deps_list, temporal_deps_sets)`:
the per-node cluster ids in node-list order. -/
def clusterByFirstAppearance (depsList : List Nat) (slices : List (Nat × Finset Nat)) :
    List Nat :=
  assignClusters (firstAppearance slices) depsList [] 0

/-- Modelled from the spec (section 4.7 and the C5 claim): the *ordinal of
the chronologically-first slice whose closure contains the node*, i.e. the
position, in ascending label order, of the first slice containing it. -/
def ordinalOfFirstSlice (slices : List (Nat × Finset Nat)) (dep : Nat) : Option Nat :=
  ((slices.map Prod.fst).mergeSort (fun a b => a ≤ b)).findIdx?
    (fun p => match sliceGet slices p with
      | some s => dep ∈ s
      | none => false)

/-- First-occurrence deduplication of a list (used to state what cluster ids
the code actually assigns). -/
def dedupKeepFirst : List Nat → List Nat
  | [] => []
  | d :: rest => d :: (dedupKeepFirst rest).filter (fun x => x ≠ d)

/-- Every index that can ever be enqueued by the BFS: the codomain of the
edge set. -/
def candSet (A : AdjMatrix) : Finset Nat := A.entries.image Prod.snd

/-- Step-count measure of a BFS state: queue length plus twice the number of
ever-enqueueable indices not yet in the set; it strictly decreases at every
loop iteration. -/
def bfsMeasure (A : AdjMatrix) (queue : List Nat) (deps : Finset Nat) : Nat :=
  queue.length + 2 * (candSet A \ deps).card

/-- Padded lower-bound version of a parsed spec token: missing components
default to zero, as in `Version(major=major, minor=0, patch=0)`. -/
def tokPad (t : SpecTok) : PyVersion :=
  ⟨t.major.getD 0, ((t.minor.getD (some 0)).getD 0), ((t.patch.getD (some 0)).getD 0), [], []⟩

/-- Whether a parsed spec token names all three numeric components. -/
def tokIsFull (t : SpecTok) : Bool :=
  match t.minor, t.patch with
  | some (some _), some (some _) => true
  | _, _ => false

/-- Exclusive upper bound implied by a partial token: `<=b` widens to the
next major (one component) or next minor (two components). -/
def tokNext (t : SpecTok) : PyVersion :=
  match t.minor with
  | none => nextMajor (tokPad t)
  | some none => tokPad t
  | some (some _) =>
    match t.patch with
    | none => nextMinor (tokPad t)
    | some _ => tokPad t

/-- A plain numeric token: concrete major, no wildcard components, no
prerelease, no build. -/
def plainTok (t : SpecTok) : Prop :=
  t.major ≠ none ∧ t.minor ≠ some none ∧ t.patch ≠ some none ∧
    t.prerel = none ∧ t.build = none ∧ (t.minor = none → t.patch = none)

/-! # Theorems -/

/-! ## Ordering and comparator basics -/

theorem ordering_gt_or_eq_iff (o : Ordering) : (o = .gt ∨ o = .eq) ↔ o ≠ .lt := by
  cases o <;> simp

theorem ordering_lt_or_eq_iff (o : Ordering) : (o = .lt ∨ o = .eq) ↔ o ≠ .gt := by
  cases o <;> simp

theorem cmpN_eq_lt_iff {a b : Nat} : cmpN a b = .lt ↔ a < b := by
  unfold cmpN; split_ifs <;> simp <;> omega

theorem cmpN_eq_gt_iff {a b : Nat} : cmpN a b = .gt ↔ b < a := by
  unfold cmpN; split_ifs <;> simp <;> omega

theorem cmpN_eq_eq_iff {a b : Nat} : cmpN a b = .eq ↔ a = b := by
  unfold cmpN; split_ifs <;> simp <;> omega

theorem cmpVer_plain_eq {x y : PyVersion} (hx : x.prerelease = []) (hy : y.prerelease = []) :
    cmpVer x y =
      (match cmpN x.major y.major with
       | .eq =>
         match cmpN x.minor y.minor with
         | .eq => cmpN x.patch y.patch
         | o => o
       | o => o) := by
  unfold cmpVer
  rw [hx, hy]
  cases cmpN x.major y.major <;> cases cmpN x.minor y.minor <;>
    cases cmpN x.patch y.patch <;> rfl

theorem cmpVer_plain_gt_iff {x y : PyVersion} (hx : x.prerelease = []) (hy : y.prerelease = []) :
    cmpVer x y = .gt ↔
      (y.major < x.major ∨ (y.major = x.major ∧
        (y.minor < x.minor ∨ (y.minor = x.minor ∧ y.patch < x.patch)))) := by
  rw [cmpVer_plain_eq hx hy]
  simp only [cmpN]
  split_ifs <;> simp <;> omega

theorem cmpVer_plain_lt_iff {x y : PyVersion} (hx : x.prerelease = []) (hy : y.prerelease = []) :
    cmpVer x y = .lt ↔
      (x.major < y.major ∨ (x.major = y.major ∧
        (x.minor < y.minor ∨ (x.minor = y.minor ∧ x.patch < y.patch)))) := by
  rw [cmpVer_plain_eq hx hy]
  simp only [cmpN]
  split_ifs <;> simp <;> omega

theorem cmpVer_plain_eq_iff {x y : PyVersion} (hx : x.prerelease = []) (hy : y.prerelease = []) :
    cmpVer x y = .eq ↔
      (x.major = y.major ∧ x.minor = y.minor ∧ x.patch = y.patch) := by
  rw [cmpVer_plain_eq hx hy]
  simp only [cmpN]
  split_ifs <;> simp <;> omega

/-! ## Claim C1 — the end-to-end regression table -/

/-- Claim C1 counterexample: on the table
`{"1": {u1: "B"}, "1.2-2": {u2: "C"}}` with versions `{"1.0.0", "1.5.0"}`,
default-mode resolution does NOT return only `{u2: "C"}`.  The hyphen-free
token `"1"` becomes `SimpleSpec("=1")`, a partial token matching every
`1.x.y` — in particular `1.5.0` — so `{u1: "B"}` is merged as well. -/
theorem c1_default_mode_counterexample :
    versionInRange "1.5.0".data "1".data = true ∧
    registryExtractDependencies
        [("1".data, .table [("u1".data, "B".data)]),
         ("1.2-2".data, .table [("u2".data, "C".data)])]
        ["1.0.0".data, "1.5.0".data] =
      [("u1".data, "B".data), ("u2".data, "C".data)] ∧
    registryExtractDependencies
        [("1".data, .table [("u1".data, "B".data)]),
         ("1.2-2".data, .table [("u2".data, "C".data)])]
        ["1.0.0".data, "1.5.0".data] ≠ [("u2".data, "C".data)] := by
  exact ⟨by decide, by decide, by decide⟩

/-- Claim C1 (amended): on the table
`{"1": {u1: "B"}, "1.2-2": {u2: "C"}}` with versions `{"1.0.0", "1.5.0"}`,
`selectLatest` returns `"1.5.0"`, and BOTH default-mode and historical-mode
resolution return `{u1: "B", u2: "C"}` — default mode because the exact-match
token `"1"` is a partial semantic-version token that matches `1.5.0`, and
historical mode because of the unconditional bare-major/literal-"1"
pre-merge. -/
theorem c1_amended :
    selectLatestRegistry ["1.0.0".data, "1.5.0".data] = some "1.5.0".data ∧
    registryExtractDependencies
        [("1".data, .table [("u1".data, "B".data)]),
         ("1.2-2".data, .table [("u2".data, "C".data)])]
        ["1.0.0".data, "1.5.0".data] =
      [("u1".data, "B".data), ("u2".data, "C".data)] ∧
    extractDepsForVersion
        [("1".data, .table [("u1".data, "B".data)]),
         ("1.2-2".data, .table [("u2".data, "C".data)])]
        "1.5.0".data =
      [("u1".data, "B".data), ("u2".data, "C".data)] := by
  exact ⟨by decide, by decide, by decide⟩

/-! ## Claim C2 and C3 counterexamples -/

/-- Claim C2 counterexample: `matches("1.0.4", "1.0.3-1")` is true in the
code (the partial upper bound `"1"` widens to `< 2.0.0`), yet
`coerce("1.0.4") ≤ coerce("1")` is false (`1.0.4 > 1.0.0`), refuting the
claimed equivalence with the coercion-interval `[a, b]`. -/
theorem c2_interval_counterexample :
    versionInRange "1.0.4".data "1.0.3-1".data = true ∧
    coerce "1.0.4".data = some ⟨1, 0, 4, [], []⟩ ∧
    coerce "1".data = some ⟨1, 0, 0, [], []⟩ ∧
    cmpVer ⟨1, 0, 4, [], []⟩ ⟨1, 0, 0, [], []⟩ = .gt := by
  exact ⟨by decide, by decide, by decide, by decide⟩

/-- Claim C3 counterexample: `matches("0.22.6", "0")` is true in the code,
yet `0.22.6` and `0` do not denote the same coerced version, refuting the
claim that a hyphen-free token requires exact coercion equality. -/
theorem c3_exact_counterexample :
    versionInRange "0.22.6".data "0".data = true ∧
    coerce "0.22.6".data = some ⟨0, 22, 6, [], []⟩ ∧
    coerce "0".data = some ⟨0, 0, 0, [], []⟩ ∧
    (⟨0, 22, 6, [], []⟩ : PyVersion) ≠ ⟨0, 0, 0, [], []⟩ := by
  exact ⟨by decide, by decide, by decide, by decide⟩

/-! ## Claim C6 — order dependence of selectLatest -/

/-- Claim C6 counterexample: the version set `{"1.0", "1.0.0"}` has two
distinct strings with equal comparison keys; Python `max` keeps the first
maximal item, so permuting the enumeration order changes the returned
string under BOTH the registry and the legacy comparator. -/
theorem c6_order_counterexample :
    ["1.0".data, "1.0.0".data].Perm ["1.0.0".data, "1.0".data] ∧
    selectLatestRegistry ["1.0".data, "1.0.0".data] = some "1.0".data ∧
    selectLatestRegistry ["1.0.0".data, "1.0".data] = some "1.0.0".data ∧
    selectLatestLegacy ["1.0".data, "1.0.0".data] = some "1.0".data ∧
    selectLatestLegacy ["1.0.0".data, "1.0".data] = some "1.0.0".data := by
  exact ⟨by decide, by decide, by decide, by decide, by decide⟩

/-! ## Claim C7 — totality of the comparison keys -/

/-- Claim C7 counterexample: the registry comparison key
(`Version.coerce`) raises `ValueError` — modelled as `none` — on the purely
non-numeric string `"abc"`, so computing it inside `max` aborts the call
(the enclosing handler catches the exception); the legacy key maps the same
input to the bottom tuple instead. -/
theorem c7_registry_key_counterexample :
    coerce "abc".data = none ∧
    selectLatestRegistry ["abc".data, "1.0.0".data] = none ∧
    legacyVersionTuple "abc".data = [0, 0, 0] := by
  exact ⟨by decide, by decide, by decide⟩

theorem pyListLt_nil_right (l : List Nat) : pyListLt l [] = false := by
  cases l <;> rfl

theorem pyListLt_bot_false (l : List Nat) (h : 3 ≤ l.length) :
    pyListLt l [0, 0, 0] = false := by
  match l, h with
  | a :: b :: c :: r, _ =>
    simp only [pyListLt]
    split_ifs <;> first | rfl | (exfalso; omega) | exact pyListLt_nil_right r

theorem legacyVersionTuple_length (v : Str) : 3 ≤ (legacyVersionTuple v).length := by
  simp only [legacyVersionTuple]
  split_ifs with h
  · simp
  · simp only [List.length_append, List.length_replicate, List.length_map]
    omega

theorem mem_takeUntil {c ch : Char} {s : Str} (h : c ∈ takeUntil ch s) : c ∈ s := by
  induction s with
  | nil => simp [takeUntil] at h
  | cons a rest ih =>
    by_cases ha : a = ch
    · simp [takeUntil, ha] at h
    · simp only [takeUntil, if_neg ha] at h
      rcases List.mem_cons.mp h with h | h
      · simp [h]
      · exact List.mem_cons_of_mem a (ih h)

/-- Claim C7 (amended): the legacy comparator is total and never raises —
every input is mapped to an integer tuple, digit-free (malformed) input is
mapped to the bottom tuple `(0,0,0)`, and no key whatsoever sorts strictly
below that bottom tuple; the registry comparator, by contrast, raises
(`none`) on strings lacking a leading numerical component, such as
`"abc"`, the exception being swallowed by the enclosing dependency-extraction
handler. -/
theorem c7_amended_comparator_totality :
    (∀ v : Str, pyListLt (legacyVersionTuple v) [0, 0, 0] = false) ∧
    (∀ v : Str, ¬ v.any Char.isDigit → legacyVersionTuple v = [0, 0, 0]) ∧
    coerce "abc".data = none := by
  refine ⟨fun v => pyListLt_bot_false _ (legacyVersionTuple_length v), fun v hv => ?_, by decide⟩
  unfold legacyVersionTuple
  have hclean : ¬ (takeUntil '-' (takeUntil '+' v)).any Char.isDigit := by
    intro hc
    rcases List.any_eq_true.mp hc with ⟨c, hc1, hc2⟩
    exact hv (List.any_eq_true.mpr ⟨c, mem_takeUntil (mem_takeUntil hc1), hc2⟩)
  rw [if_pos (Or.inr (by simpa using hclean))]

/-- Claim C7 witness: the amended comparator statement applied at the
concrete malformed input `"abc"`. -/
theorem c7_amended_comparator_totality_witness :
    pyListLt (legacyVersionTuple "xyz".data) [0, 0, 0] = false ∧
    legacyVersionTuple "xyz".data = [0, 0, 0] := by
  exact ⟨c7_amended_comparator_totality.1 "xyz".data,
    c7_amended_comparator_totality.2.1 "xyz".data (by decide)⟩

/-! ## Claim C10 — the julia requirement is always skipped -/

theorem mem_dictSet {α : Type} {d : List (Str × α)} {k : Str} {v : α} {p : Str × α}
    (h : p ∈ dictSet d k v) : p = (k, v) ∨ p ∈ d := by
  induction d with
  | nil => simpa [dictSet] using h
  | cons e rest ih =>
    by_cases he : e.1 = k
    · simp only [dictSet, if_pos he] at h
      rcases List.mem_cons.mp h with h | h
      · exact Or.inl h
      · exact Or.inr (List.mem_cons_of_mem e h)
    · simp only [dictSet, if_neg he] at h
      rcases List.mem_cons.mp h with h | h
      · exact Or.inr (by simp [h])
      · rcases ih h with h | h
        · exact Or.inl h
        · exact Or.inr (List.mem_cons_of_mem e h)

theorem requiresLineStep_no_julia {deps : List (Str × Str)} {l : Str}
    (h : ∀ p ∈ deps, p.2 ≠ "julia".data) :
    ∀ p ∈ requiresLineStep deps l, p.2 ≠ "julia".data := by
  intro p hp
  simp only [requiresLineStep] at hp
  split_ifs at hp with h1
  · exact h p hp
  · rcases hsw : splitWhitespace (pyStrip l) with _ | ⟨depName, restToks⟩
    · rw [hsw] at hp
      exact h p hp
    · rw [hsw] at hp
      dsimp only at hp
      by_cases hj : depName = ['j', 'u', 'l', 'i', 'a']
      · rw [if_pos hj] at hp
        exact h p hp
      · rw [if_neg hj] at hp
        rcases mem_dictSet hp with h2 | h2
        · rw [h2]
          intro hc
          exact hj (by simpa using hc)
        · exact h p h2

theorem parseRequires_no_julia_aux (lines : List Str) (acc : List (Str × Str))
    (hacc : ∀ p ∈ acc, p.2 ≠ "julia".data) :
    ∀ p ∈ lines.foldl requiresLineStep acc, p.2 ≠ "julia".data := by
  induction lines generalizing acc with
  | nil => simpa using hacc
  | cons l rest ih => exact ih _ (requiresLineStep_no_julia hacc)

/-- Claim C10: legacy dependency extraction never yields an entry whose
dependency name is `julia` — every requires line whose first token is
`julia` is skipped, as are blank lines and `#` comment lines (which leave
the accumulated dict unchanged). -/
theorem c10_no_julia_dependency :
    (∀ (versionKeys : List Str) (requiresOf : Str → Option (List Str)),
      ∀ p ∈ metadataExtractDependencies versionKeys requiresOf, p.2 ≠ "julia".data) ∧
    (∀ (deps : List (Str × Str)) (l : Str),
      pyStrip l = [] ∨ (pyStrip l).head? = some '#' ∨
        (splitWhitespace (pyStrip l)).head? = some "julia".data →
      requiresLineStep deps l = deps) := by
  constructor
  · intro versionKeys requiresOf p hp
    simp only [metadataExtractDependencies] at hp
    split_ifs at hp with h1
    · simp at hp
    · rcases hsel : selectLatestLegacy versionKeys with _ | latest
      · simp [hsel] at hp
      · simp only [hsel] at hp
        rcases hreq : requiresOf latest with _ | lines
        · simp [hreq] at hp
        · simp only [hreq] at hp
          exact parseRequires_no_julia_aux lines [] (by simp) p hp
  · intro deps l hskip
    simp only [requiresLineStep]
    rcases hskip with h | h | h
    · rw [if_pos (Or.inl h)]
    · rw [if_pos (Or.inr h)]
    · by_cases h1 : pyStrip l = [] ∨ (pyStrip l).head? = some '#'
      · rw [if_pos h1]
      · rw [if_neg h1]
        rcases hsw : splitWhitespace (pyStrip l) with _ | ⟨depName, restToks⟩
        · rfl
        · rw [hsw] at h
          simp only [List.head?_cons, Option.some.injEq] at h
          dsimp only
          rw [if_pos (show depName = ['j', 'u', 'l', 'i', 'a'] from by rw [h])]

/-- Claim C10 witness: a concrete requires file containing a julia line, a
comment, a blank line and one real dependency. -/
theorem c10_no_julia_dependency_witness :
    ("metadata-foo".data, "Foo".data) ∈
        metadataExtractDependencies ["0.1".data]
          (fun _ => some ["julia 0.6".data, "# comment".data, "".data, "Foo 0.1".data]) ∧
    ("metadata-foo".data, "Foo".data).2 ≠ "julia".data ∧
    requiresLineStep [] "julia 0.6".data = [] := by
  refine ⟨by decide, ?_, ?_⟩
  · exact c10_no_julia_dependency.1 ["0.1".data]
      (fun _ => some ["julia 0.6".data, "# comment".data, "".data, "Foo 0.1".data])
      ("metadata-foo".data, "Foo".data) (by decide)
  · exact c10_no_julia_dependency.2 [] "julia 0.6".data (by decide)

/-! ## Claim C9 — metadata failure excludes the whole package -/

theorem dictGetS_dictSetS {α : Type} (d : List (String × α)) (k n : String) (v : α) :
    dictGetS (dictSetS d k v) n = if k = n then some v else dictGetS d n := by
  induction d with
  | nil => simp [dictSetS, dictGetS]
  | cons e rest ih =>
    by_cases he : e.1 = k
    · simp only [dictSetS, if_pos he, dictGetS]
      by_cases hkn : k = n
      · simp [hkn]
      · rw [if_neg hkn, if_neg hkn, if_neg (by rw [he]; exact hkn)]
    · simp only [dictSetS, if_neg he, dictGetS]
      by_cases hen : e.1 = n
      · rw [if_pos hen, if_neg (by intro hkn; exact he (by rw [hkn, hen])), if_pos hen]
      · rw [if_neg hen, if_neg hen, ih]

theorem statOf_bumpStat (s : Snapshot) (f g : PkgFormat) :
    (s.bumpStat f).statOf g = s.statOf g + if f = g then 1 else 0 := by
  cases f <;> cases g <;> simp [Snapshot.bumpStat, Snapshot.statOf]

theorem processPackageDir_maps (s : Snapshot) (d : PkgDirInfo) (n : String)
    (h : d.name = n → d.metadata = none) :
    dictGetS (processPackageDir s d).packages n = dictGetS s.packages n ∧
    dictGetS (processPackageDir s d).dependencies n = dictGetS s.dependencies n := by
  simp only [processPackageDir]
  split_ifs with h1
  · cases d.format <;> simp [Snapshot.bumpStat]
  · rcases hm : d.metadata with _ | m
    · cases d.format <;> simp [Snapshot.bumpStat]
    · have hne : d.name ≠ n := by
        intro he
        rw [h he] at hm
        exact Option.noConfusion hm
      dsimp only
      constructor
      · rw [dictGetS_dictSetS, if_neg hne]
        cases d.format <;> simp [Snapshot.bumpStat]
      · rw [dictGetS_dictSetS, if_neg hne]
        cases d.format <;> simp [Snapshot.bumpStat]

theorem statOf_processPackageDir (s : Snapshot) (d : PkgDirInfo) (g : PkgFormat) :
    (processPackageDir s d).statOf g = s.statOf g + if d.format = g then 1 else 0 := by
  by_cases h1 : d.format = PkgFormat.unknown
  · rw [show processPackageDir s d = s.bumpStat d.format from by
      simp [processPackageDir, h1]]
    exact statOf_bumpStat s d.format g
  · rcases hm : d.metadata with _ | m
    · rw [show processPackageDir s d = s.bumpStat d.format from by
        simp [processPackageDir, h1, hm]]
      exact statOf_bumpStat s d.format g
    · have hb : (processPackageDir s d).statOf g = (s.bumpStat d.format).statOf g := by
        simp only [processPackageDir, if_neg h1, hm]
        cases g <;> rfl
      rw [hb]
      exact statOf_bumpStat s d.format g

theorem snapshot_fold_maps (dirs : List PkgDirInfo) (s : Snapshot) (n : String)
    (h : ∀ d ∈ dirs, d.name = n → d.metadata = none) :
    dictGetS (dirs.foldl processPackageDir s).packages n = dictGetS s.packages n ∧
    dictGetS (dirs.foldl processPackageDir s).dependencies n = dictGetS s.dependencies n := by
  induction dirs generalizing s with
  | nil => exact ⟨rfl, rfl⟩
  | cons d rest ih =>
    have hd := processPackageDir_maps s d n (h d (List.mem_cons_self d rest))
    have hr := ih (processPackageDir s d) (fun e he => h e (List.mem_cons_of_mem d he))
    exact ⟨hr.1.trans hd.1, hr.2.trans hd.2⟩

theorem snapshot_fold_stats (dirs : List PkgDirInfo) (s : Snapshot) (g : PkgFormat) :
    (dirs.foldl processPackageDir s).statOf g =
      s.statOf g + (dirs.filter (fun d => d.format = g)).length := by
  induction dirs generalizing s with
  | nil => simp
  | cons d rest ih =>
    rw [List.foldl_cons, ih, statOf_processPackageDir]
    by_cases hf : d.format = g
    · simp [List.filter_cons, hf]
      omega
    · simp [List.filter_cons, hf]

/-- Claim C9: in a snapshot build, a package name whose directories all fail
metadata extraction appears in neither the packages map nor the dependencies
map — whatever its versions, dependencies or compatibility payloads were —
while every directory (that name's included) is still tallied in the
per-format counts. -/
theorem c9_metadata_failure_excludes_package (dirs : List PkgDirInfo) (n : String)
    (h : ∀ d ∈ dirs, d.name = n → d.metadata = none) :
    dictGetS (extractRegistrySnapshot dirs).packages n = none ∧
    dictGetS (extractRegistrySnapshot dirs).dependencies n = none ∧
    ∀ g, (extractRegistrySnapshot dirs).statOf g =
      (dirs.filter (fun d => d.format = g)).length := by
  have hm := snapshot_fold_maps dirs emptySnapshot n h
  refine ⟨hm.1.trans rfl, hm.2.trans rfl, fun g => ?_⟩
  rw [extractRegistrySnapshot, snapshot_fold_stats]
  cases g <;> simp [emptySnapshot, Snapshot.statOf]

/-- Claim C9 witness: one late-format directory with parsed versions and
dependencies but failed metadata is excluded from both maps yet counted. -/
theorem c9_metadata_failure_excludes_package_witness :
    dictGetS (extractRegistrySnapshot
        [⟨"Makie", .late, none, [("1.0.0", "h")], [("u", "Obs")], [("r", "1")], false⟩]).packages
      "Makie" = none ∧
    dictGetS (extractRegistrySnapshot
        [⟨"Makie", .late, none, [("1.0.0", "h")], [("u", "Obs")], [("r", "1")], false⟩]).dependencies
      "Makie" = none ∧
    ∀ g, (extractRegistrySnapshot
        [⟨"Makie", .late, none, [("1.0.0", "h")], [("u", "Obs")], [("r", "1")], false⟩]).statOf g =
      ([⟨"Makie", .late, none, [("1.0.0", "h")], [("u", "Obs")], [("r", "1")], false⟩].filter
          (fun d => d.format = g) : List PkgDirInfo).length := by
  exact c9_metadata_failure_excludes_package _ "Makie" (by decide)

/-! ## Claim C4 — union graph nodes and edges -/

theorem indexOf_inj_of_mem {α : Type} [DecidableEq α] {l : List α} {a b : α}
    (ha : a ∈ l) (hb : b ∈ l) (h : l.indexOf a = l.indexOf b) : a = b := by
  have h1 : l.get ⟨l.indexOf a, List.indexOf_lt_length.mpr ha⟩ = a := List.indexOf_get _
  have h2 : l.get ⟨l.indexOf b, List.indexOf_lt_length.mpr hb⟩ = b := List.indexOf_get _
  rw [← h1, ← h2]
  congr 1
  exact Fin.ext h

theorem mem_foldl_union {β : Type} [DecidableEq β] (f : TimeSlice → Finset β)
    (slices : List TimeSlice) (init : Finset β) (x : β) :
    x ∈ slices.foldl (fun acc s => acc ∪ f s) init ↔ x ∈ init ∨ ∃ s ∈ slices, x ∈ f s := by
  induction slices generalizing init with
  | nil => simp
  | cons a rest ih =>
    rw [List.foldl_cons, ih]
    simp only [Finset.mem_union, List.mem_cons]
    constructor
    · rintro ((h | h) | ⟨t, ht, hx⟩)
      · exact Or.inl h
      · exact Or.inr ⟨a, Or.inl rfl, h⟩
      · exact Or.inr ⟨t, Or.inr ht, hx⟩
    · rintro (h | ⟨t, (rfl | ht), hx⟩)
      · exact Or.inl (Or.inl h)
      · exact Or.inl (Or.inr hx)
      · exact Or.inr ⟨t, ht, hx⟩

theorem mem_allDepsUnion (slices : List TimeSlice) (x : Nat) :
    x ∈ allDepsUnion slices ↔ ∃ s ∈ slices, x ∈ s.deps := by
  rw [allDepsUnion, mem_foldl_union (fun s => s.deps)]
  simp

theorem mem_unionAdj (slices : List TimeSlice) (p : Nat × Nat) :
    p ∈ unionAdj slices ↔ ∃ s ∈ slices, p ∈ s.adj := by
  rw [unionAdj, mem_foldl_union (fun s => s.adj)]
  simp

/-- Claim C4: the union graph's node set is exactly the set-union of the
per-slice closure sets, independent of the order slices are processed, and
for nodes `u`, `v` of the union node set, the re-indexed union subgraph has
the edge `u → v` exactly when some slice's adjacency has it. -/
theorem c4_union_graph_or_of_slices (slices slices2 : List TimeSlice)
    (hperm : slices.Perm slices2) :
    (∀ x, x ∈ allDepsUnion slices ↔ ∃ s ∈ slices, x ∈ s.deps) ∧
    allDepsUnion slices = allDepsUnion slices2 ∧
    (∀ u v, u ∈ allDepsUnion slices → v ∈ allDepsUnion slices →
      ((origToGraph slices u, origToGraph slices v) ∈ unionSubgraph slices ↔
        ∃ s ∈ slices, (u, v) ∈ s.adj)) := by
  refine ⟨mem_allDepsUnion slices, ?_, ?_⟩
  · ext x
    rw [mem_allDepsUnion, mem_allDepsUnion]
    simp [hperm.mem_iff]
  · intro u v hu hv
    have husort : u ∈ depsListOf slices := Finset.mem_sort _ |>.mpr hu
    have hvsort : v ∈ depsListOf slices := Finset.mem_sort _ |>.mpr hv
    constructor
    · intro hmem
      rcases Finset.mem_image.mp hmem with ⟨p, hp, heq⟩
      rcases Finset.mem_filter.mp hp with ⟨hpadj, hp1, hp2⟩
      have e1 : p.1 = u := by
        refine indexOf_inj_of_mem (Finset.mem_sort _ |>.mpr hp1) husort ?_
        exact congrArg Prod.fst heq
      have e2 : p.2 = v := by
        refine indexOf_inj_of_mem (Finset.mem_sort _ |>.mpr hp2) hvsort ?_
        exact congrArg Prod.snd heq
      have : (u, v) ∈ unionAdj slices := by
        have : p = (u, v) := Prod.ext e1 e2
        rwa [this] at hpadj
      exact (mem_unionAdj slices (u, v)).mp this
    · intro hex
      refine Finset.mem_image.mpr ⟨(u, v), Finset.mem_filter.mpr ⟨?_, hu, hv⟩, rfl⟩
      exact (mem_unionAdj slices (u, v)).mpr hex

/-- Claim C4 witness: two concrete slices, in both orders. -/
theorem c4_union_graph_or_of_slices_witness :
    allDepsUnion [⟨{1, 2}, {(1, 2)}⟩, ⟨{2, 3}, {(2, 3)}⟩] =
      allDepsUnion [⟨{2, 3}, {(2, 3)}⟩, ⟨{1, 2}, {(1, 2)}⟩] ∧
    ((origToGraph [⟨{1, 2}, {(1, 2)}⟩, ⟨{2, 3}, {(2, 3)}⟩] 1,
        origToGraph [⟨{1, 2}, {(1, 2)}⟩, ⟨{2, 3}, {(2, 3)}⟩] 2) ∈
        unionSubgraph [⟨{1, 2}, {(1, 2)}⟩, ⟨{2, 3}, {(2, 3)}⟩] ↔
      ∃ s ∈ [(⟨{1, 2}, {(1, 2)}⟩ : TimeSlice), ⟨{2, 3}, {(2, 3)}⟩], (1, 2) ∈ s.adj) := by
  have h := c4_union_graph_or_of_slices
    [⟨{1, 2}, {(1, 2)}⟩, ⟨{2, 3}, {(2, 3)}⟩]
    [⟨{2, 3}, {(2, 3)}⟩, ⟨{1, 2}, {(1, 2)}⟩] (by decide)
  exact ⟨h.2.1, h.2.2 1 2 (by decide) (by decide)⟩

/-! ## Claim C5 — cluster id assignment -/

theorem dedupKeepFirst_filter (p : Nat → Bool) (l : List Nat) :
    dedupKeepFirst (l.filter p) = (dedupKeepFirst l).filter p := by
  induction l with
  | nil => rfl
  | cons d rest ih =>
    by_cases hp : p d = true
    · rw [List.filter_cons_of_pos hp]
      simp only [dedupKeepFirst, ih, List.filter_cons_of_pos hp]
      rw [List.filter_filter, List.filter_filter]
      refine congrArg (fun t => d :: t) (List.filter_congr (fun x _ => ?_))
      rw [Bool.and_comm]
    · rw [List.filter_cons_of_neg hp]
      simp only [dedupKeepFirst, ih]
      rw [List.filter_cons_of_neg hp, List.filter_filter]
      refine (List.filter_congr (fun x _ => ?_)).symm
      by_cases hx : x = d
      · subst hx
        simp [hp]
      · simp [hx]

theorem assignClusters_spec (fa : Nat → Option Nat) (l : List Nat) :
    ∀ (seen : List Nat) (d2c : List (Nat × Nat)), seen.Nodup →
      (∀ e, ((d2c.find? (fun q => q.1 = e)).map Prod.snd) =
        if e ∈ seen then some (seen.indexOf e) else none) →
      assignClusters fa l d2c seen.length =
        l.map (fun n =>
          match fa n with
          | none => 0
          | some d =>
            (seen ++ dedupKeepFirst ((l.filterMap fa).filter (fun x => x ∉ seen))).indexOf d) := by
  induction l with
  | nil =>
    intro seen d2c hnd hspec
    rfl
  | cons n rest ih =>
    intro seen d2c hnd hspec
    rcases hfa : fa n with _ | d
    · simp only [assignClusters, hfa, List.map_cons, List.filterMap_cons_none hfa]
      rw [ih seen d2c hnd hspec]
    · have hlook := hspec d
      simp only [assignClusters, hfa, List.map_cons, List.filterMap_cons_some hfa]
      by_cases hd : d ∈ seen
      · rw [if_pos hd] at hlook
        rw [hlook]
        have hfilter : (d :: (rest.filterMap fa)).filter (fun x => x ∉ seen) =
            (rest.filterMap fa).filter (fun x => x ∉ seen) :=
          List.filter_cons_of_neg (by simp [hd])
        rw [hfilter, ih seen d2c hnd hspec]
        rw [List.indexOf_append_of_mem hd]
      · rw [if_neg hd] at hlook
        rw [hlook]
        have hnd2 : (seen ++ [d]).Nodup := by
          simp [List.nodup_append, hnd, hd]
        have hspec2 : ∀ e, ((((d, seen.length) :: d2c).find?
              (fun q => q.1 = e)).map Prod.snd) =
            if e ∈ seen ++ [d] then some ((seen ++ [d]).indexOf e) else none := by
          intro e
          by_cases hde : d = e
          · subst hde
            rw [List.find?_cons_of_pos _ (by simp)]
            rw [if_pos (by simp)]
            rw [List.indexOf_append_of_not_mem hd]
            simp
          · rw [List.find?_cons_of_neg _ (by simp [hde]), hspec e]
            by_cases he : e ∈ seen
            · rw [if_pos he, if_pos (by simp [List.mem_append, he]),
                List.indexOf_append_of_mem he]
            · have hne2 : e ∉ seen ++ [d] := by
                intro hmem
                rcases List.mem_append.mp hmem with h | h
                · exact he h
                · exact hde (List.mem_singleton.mp h).symm
              rw [if_neg he, if_neg hne2]
        have hlen : seen.length + 1 = (seen ++ [d]).length := by simp
        rw [hlen, ih (seen ++ [d]) ((d, seen.length) :: d2c) hnd2 hspec2]
        have hsplit : (rest.filterMap fa).filter (fun x => x ∉ seen ++ [d]) =
            ((rest.filterMap fa).filter (fun x => x ∉ seen)).filter (fun x => x ≠ d) := by
          rw [List.filter_filter]
          refine List.filter_congr (fun x _ => ?_)
          by_cases h1 : x ∈ seen <;> by_cases h2 : x = d <;>
            simp [h1, h2, List.mem_append]
        have hlist : (seen ++ [d]) ++
              dedupKeepFirst ((rest.filterMap fa).filter (fun x => x ∉ seen ++ [d])) =
            seen ++ dedupKeepFirst
              ((d :: rest.filterMap fa).filter (fun x => x ∉ seen)) := by
          rw [hsplit, dedupKeepFirst_filter]
          rw [List.filter_cons_of_pos (by simp [hd])]
          simp only [dedupKeepFirst, List.append_assoc, List.singleton_append]
        refine List.cons_eq_cons.mpr ⟨?_, ?_⟩
        · rw [List.filter_cons_of_pos (by simp [hd]), List.indexOf_append_of_not_mem hd]
          simp [dedupKeepFirst]
        · refine List.map_congr_left (fun a _ => ?_)
          rcases fa a with _ | e
          · rfl
          · rw [hlist]

theorem sliceGet_eq_iff_of_nodup {slices : List (Nat × Finset Nat)}
    (hnd : (slices.map Prod.fst).Nodup) {q : Nat} {t : Finset Nat} :
    sliceGet slices q = some t ↔ (q, t) ∈ slices := by
  induction slices with
  | nil => simp [sliceGet]
  | cons e rest ih =>
    rw [List.map_cons, List.nodup_cons] at hnd
    obtain ⟨hhead, htail⟩ := hnd
    by_cases he : e.1 = q
    · simp only [sliceGet, if_pos he, List.mem_cons]
      constructor
      · intro heq
        left
        have h2 : e.2 = t := Option.some.inj heq
        calc (q, t) = (e.1, e.2) := by rw [he, h2]
          _ = e := rfl
      · rintro (heq | hmem)
        · rw [← heq]
        · exact absurd (show e.1 ∈ rest.map Prod.fst from by
            rw [he]; exact List.mem_map.mpr ⟨(q, t), hmem, rfl⟩) hhead
    · simp only [sliceGet, if_neg he, ih htail, List.mem_cons]
      constructor
      · exact fun h => Or.inr h
      · rintro (heq | hmem)
        · exact absurd (congrArg Prod.fst heq.symm) he
        · exact hmem

theorem find?_sorted_min {l : List Nat} (p : Nat → Bool)
    (hs : l.Pairwise (fun a b => a ≤ b)) (d : Nat) :
    l.find? p = some d ↔ d ∈ l ∧ p d = true ∧ ∀ q ∈ l, p q = true → d ≤ q := by
  induction l with
  | nil => simp
  | cons a rest ih =>
    rw [List.pairwise_cons] at hs
    obtain ⟨ha, htail⟩ := hs
    by_cases hpa : p a = true
    · rw [List.find?_cons_of_pos _ hpa]
      constructor
      · intro heq
        obtain rfl := Option.some.inj heq
        refine ⟨List.mem_cons_self _ _, hpa, fun q hq hpq => ?_⟩
        rcases List.mem_cons.mp hq with rfl | hq
        · exact Nat.le_refl _
        · exact ha q hq
      · rintro ⟨hd, hpd, hmin⟩
        have h1 : d ≤ a := hmin a (List.mem_cons_self _ _) hpa
        rcases List.mem_cons.mp hd with rfl | hd
        · rfl
        · rw [Nat.le_antisymm (ha d hd) h1]
    · rw [List.find?_cons_of_neg _ hpa, ih htail]
      constructor
      · rintro ⟨hd, hpd, hmin⟩
        refine ⟨List.mem_cons_of_mem a hd, hpd, fun q hq hpq => ?_⟩
        rcases List.mem_cons.mp hq with rfl | hq
        · exact absurd hpq hpa
        · exact hmin q hq hpq
      · rintro ⟨hd, hpd, hmin⟩
        rcases List.mem_cons.mp hd with rfl | hd
        · exact absurd hpd hpa
        · exact ⟨hd, hpd, fun q hq hpq => hmin q (List.mem_cons_of_mem a hq) hpq⟩

unseal List.merge List.mergeSort in
/-- Claim C5 counterexample: with slices labelled 0 (closure {5}) and 1
(closure {3, 5}) and node list [3, 5], the code assigns clusters [0, 1] —
ids in first-encounter order along the node list — while the chronological
ordinals of the nodes' first slices are 1 (for node 3) and 0 (for node 5),
so the assigned id differs from the claimed ordinal for both nodes. -/
theorem c5_counterexample_ordinal :
    clusterByFirstAppearance [3, 5] [(0, {5}), (1, {3, 5})] = [0, 1] ∧
    ordinalOfFirstSlice [(0, {5}), (1, {3, 5})] 3 = some 1 ∧
    ordinalOfFirstSlice [(0, {5}), (1, {3, 5})] 5 = some 0 ∧
    (clusterByFirstAppearance [3, 5] [(0, {5}), (1, {3, 5})])[0]? ≠
      ordinalOfFirstSlice [(0, {5}), (1, {3, 5})] 3 := by
  exact ⟨by decide, by decide, by decide, by decide⟩

/-- Claim C5 (amended): slices are processed in ascending label order — with
unique labels, a node's recorded first appearance is exactly the least label
among the slices whose closure contains it, and nodes absent from every
closure get cluster 0; but a present node's cluster id is the rank of its
first-appearance date in first-ENCOUNTER order along the node list (a fresh
id is allocated each time a new date is met while walking the node list),
not the chronological ordinal of that slice. -/
theorem c5_amended_cluster_characterization :
    (∀ (depsList : List Nat) (slices : List (Nat × Finset Nat)),
      clusterByFirstAppearance depsList slices =
        depsList.map (fun n =>
          match firstAppearance slices n with
          | none => 0
          | some d =>
            (dedupKeepFirst (depsList.filterMap (firstAppearance slices))).indexOf d)) ∧
    (∀ (slices : List (Nat × Finset Nat)), (slices.map Prod.fst).Nodup →
      ∀ n d, firstAppearance slices n = some d ↔
        (∃ t, (d, t) ∈ slices ∧ n ∈ t) ∧
          ∀ q t, (q, t) ∈ slices → n ∈ t → d ≤ q) := by
  constructor
  · intro depsList slices
    have h := assignClusters_spec (firstAppearance slices) depsList [] []
      List.nodup_nil (fun e => by simp)
    simp only [List.length_nil] at h
    rw [clusterByFirstAppearance, h]
    refine List.map_congr_left (fun n _ => ?_)
    rcases firstAppearance slices n with _ | d
    · rfl
    · simp

  · intro slices hnd n d
    rw [firstAppearance]
    have h1 := @List.sorted_mergeSort Nat (fun a b => a ≤ b)
      (fun a b c hab hbc => by
        simp only [decide_eq_true_eq] at hab hbc ⊢
        omega)
      (fun a b => by simpa using Nat.le_total a b)
      (slices.map Prod.fst)
    have hsorted : ((slices.map Prod.fst).mergeSort (fun a b => a ≤ b)).Pairwise
        (fun a b : Nat => a ≤ b) := h1.imp (fun h => by simpa using h)
    rw [find?_sorted_min _ hsorted]
    have hmem : ∀ q, q ∈ (slices.map Prod.fst).mergeSort (fun a b => a ≤ b) ↔
        ∃ t, (q, t) ∈ slices := by
      intro q
      rw [List.mem_mergeSort, List.mem_map]
      constructor
      · rintro ⟨e, he, rfl⟩
        exact ⟨e.2, he⟩
      · rintro ⟨t, ht⟩
        exact ⟨(q, t), ht, rfl⟩
    have hpred : ∀ q, ((match sliceGet slices q with
        | some s => decide (n ∈ s)
        | none => false) = true) ↔ ∃ t, (q, t) ∈ slices ∧ n ∈ t := by
      intro q
      rcases hg : sliceGet slices q with _ | s
      · simp only [Bool.false_eq_true, false_iff]
        rintro ⟨t, ht, _⟩
        rw [(sliceGet_eq_iff_of_nodup hnd).mpr ht] at hg
        exact Option.noConfusion hg
      · simp only [decide_eq_true_eq]
        constructor
        · intro hns
          exact ⟨s, (sliceGet_eq_iff_of_nodup hnd).mp hg, hns⟩
        · rintro ⟨t, ht, hnt⟩
          have h2 : sliceGet slices q = some t := (sliceGet_eq_iff_of_nodup hnd).mpr ht
          rw [hg] at h2
          rw [Option.some.inj h2]
          exact hnt
    constructor
    · rintro ⟨hdm, hpd, hmin⟩
      refine ⟨(hpred d).mp hpd, fun q t hq hnt => ?_⟩
      exact hmin q ((hmem q).mpr ⟨t, hq⟩) ((hpred q).mpr ⟨t, hq, hnt⟩)
    · rintro ⟨⟨t, ht, hnt⟩, hmin⟩
      refine ⟨(hmem d).mpr ⟨t, ht⟩, (hpred d).mpr ⟨t, ht, hnt⟩, fun q hq hpq => ?_⟩
      obtain ⟨u, hu, hnu⟩ := (hpred q).mp hpq
      exact hmin q u hu hnu

/-- Claim C5 witness: the characterization applied at a concrete node list
and slice family. -/
theorem c5_amended_cluster_characterization_witness :
    clusterByFirstAppearance [3, 5] [(0, {5}), (1, {3, 5})] =
      [3, 5].map (fun n =>
        match firstAppearance [(0, {5}), (1, {3, 5})] n with
        | none => 0
        | some d =>
          (dedupKeepFirst ([3, 5].filterMap
            (firstAppearance [(0, {5}), (1, {3, 5})]))).indexOf d) ∧
    (firstAppearance [(0, ({5} : Finset Nat)), (1, {3, 5})] 3 = some 1 ↔
      (∃ t, ((1 : Nat), t) ∈ [(0, ({5} : Finset Nat)), (1, {3, 5})] ∧ 3 ∈ t) ∧
        ∀ q t, (q, t) ∈ [(0, ({5} : Finset Nat)), (1, {3, 5})] → 3 ∈ t → 1 ≤ q) := by
  exact ⟨c5_amended_cluster_characterization.1 [3, 5] [(0, {5}), (1, {3, 5})],
    c5_amended_cluster_characterization.2 [(0, {5}), (1, {3, 5})] (by decide) 3 1⟩

/-! ## Claim C6 — permutation invariance of selectLatest under injective keys -/

theorem pyListLt_cons_iff {x y : Nat} {xs ys : List Nat} :
    pyListLt (x :: xs) (y :: ys) = true ↔ x < y ∨ (x = y ∧ pyListLt xs ys = true) := by
  simp only [pyListLt]
  split_ifs with h1 h2
  · simp [h1]
  · simp
    omega
  · have hxy : x = y := by omega
    simp [hxy]

theorem pyListLt_irrefl (l : List Nat) : pyListLt l l = false := by
  induction l with
  | nil => rfl
  | cons a rest ih => simp [pyListLt, ih]

theorem pyListLt_trans {a b c : List Nat} (h1 : pyListLt a b = true)
    (h2 : pyListLt b c = true) : pyListLt a c = true := by
  induction a generalizing b c with
  | nil =>
    cases b with
    | nil => simp [pyListLt] at h1
    | cons y ys =>
      cases c with
      | nil => simp [pyListLt] at h2
      | cons z zs => simp [pyListLt]
  | cons x xs ih =>
    cases b with
    | nil => simp [pyListLt] at h1
    | cons y ys =>
      cases c with
      | nil => simp [pyListLt] at h2
      | cons z zs =>
        rw [pyListLt_cons_iff] at h1 h2 ⊢
        rcases h1 with h1 | ⟨rfl, h1⟩
        · rcases h2 with h2 | ⟨rfl, h2⟩
          · exact Or.inl (by omega)
          · exact Or.inl h1
        · rcases h2 with h2 | ⟨rfl, h2⟩
          · exact Or.inl h2
          · exact Or.inr ⟨rfl, ih h1 h2⟩

theorem pyListLt_trichotomy (a b : List Nat) :
    pyListLt a b = true ∨ pyListLt b a = true ∨ a = b := by
  induction a generalizing b with
  | nil =>
    cases b with
    | nil => simp
    | cons y ys => simp [pyListLt]
  | cons x xs ih =>
    cases b with
    | nil => simp [pyListLt]
    | cons y ys =>
      rcases Nat.lt_trichotomy x y with h | h | h
      · exact Or.inl (pyListLt_cons_iff.mpr (Or.inl h))
      · subst h
        rcases ih ys with h2 | h2 | h2
        · exact Or.inl (pyListLt_cons_iff.mpr (Or.inr ⟨rfl, h2⟩))
        · exact Or.inr (Or.inl (pyListLt_cons_iff.mpr (Or.inr ⟨rfl, h2⟩)))
        · exact Or.inr (Or.inr (by rw [h2]))
      · exact Or.inr (Or.inl (pyListLt_cons_iff.mpr (Or.inl h)))

theorem pyMaxByOpt_fold_spec {κ : Type} (beats : κ → κ → Bool) (key : Str → Option κ)
    (P : κ → Prop)
    (htrans : ∀ a b c, P a → P b → P c →
      beats a b = true → beats b c = true → beats a c = true)
    (hnegtrans : ∀ a b c, P a → P b → P c →
      beats a c = true → beats a b = true ∨ beats b c = true)
    (hirr : ∀ a, P a → beats a a = false) :
    ∀ (xs : List Str) (b : Str) (k : κ), key b = some k → P k →
      (∀ v ∈ xs, ∃ kv, key v = some kv ∧ P kv) →
      ∃ m km,
        (xs.foldl (fun acc item => acc.bind (fun best =>
            (key item).map (fun ki => if beats best.2 ki then (item, ki) else best)))
          (some (b, k))) = some (m, km) ∧
        key m = some km ∧ P km ∧ (m = b ∨ m ∈ xs) ∧
        beats km k = false ∧
        ∀ x ∈ xs, ∀ kx, key x = some kx → beats km kx = false := by
  intro xs
  induction xs with
  | nil =>
    intro b k hk hP _
    exact ⟨b, k, rfl, hk, hP, Or.inl rfl, hirr k hP, by simp⟩
  | cons i rest ih =>
    intro b k hk hP hxs
    obtain ⟨ki, hki, hPki⟩ := hxs i (List.mem_cons_self i rest)
    have hrest : ∀ v ∈ rest, ∃ kv, key v = some kv ∧ P kv :=
      fun v hv => hxs v (List.mem_cons_of_mem i hv)
    rw [List.foldl_cons]
    by_cases hb : beats k ki = true
    · rw [show ((some (b, k)).bind (fun best => (key i).map
          (fun ki2 => if beats best.2 ki2 then (i, ki2) else best))) = some (i, ki) from by
        simp [hki, hb]]
      obtain ⟨m, km, hfold, hkm, hPkm, hmem, hnb, hall⟩ := ih i ki hki hPki hrest
      refine ⟨m, km, hfold, hkm, hPkm, ?_, ?_, ?_⟩
      · rcases hmem with rfl | hm
        · exact Or.inr (List.mem_cons_self m rest)
        · exact Or.inr (List.mem_cons_of_mem i hm)
      · rw [Bool.eq_false_iff]
        intro hcon
        exact absurd (htrans km k ki hPkm hP hPki hcon hb) (by simp [hnb])
      · intro x hx kx hkx
        rcases List.mem_cons.mp hx with rfl | hx
        · rw [hki] at hkx
          rw [← Option.some.inj hkx]
          exact hnb
        · exact hall x hx kx hkx
    · rw [show ((some (b, k)).bind (fun best => (key i).map
          (fun ki2 => if beats best.2 ki2 then (i, ki2) else best))) = some (b, k) from by
        simp [hki, hb]]
      obtain ⟨m, km, hfold, hkm, hPkm, hmem, hnb, hall⟩ := ih b k hk hP hrest
      refine ⟨m, km, hfold, hkm, hPkm, ?_, hnb, ?_⟩
      · rcases hmem with rfl | hm
        · exact Or.inl rfl
        · exact Or.inr (List.mem_cons_of_mem i hm)
      · intro x hx kx hkx
        rcases List.mem_cons.mp hx with rfl | hx
        · rw [hki] at hkx
          rw [← Option.some.inj hkx]
          rw [Bool.eq_false_iff]
          intro hcon
          rcases hnegtrans km k ki hPkm hP hPki hcon with h | h
          · rw [hnb] at h
            exact Bool.noConfusion h
          · exact hb h
        · exact hall x hx kx hkx

theorem pyMaxByOpt_spec {κ : Type} (beats : κ → κ → Bool) (key : Str → Option κ)
    (P : κ → Prop)
    (htrans : ∀ a b c, P a → P b → P c →
      beats a b = true → beats b c = true → beats a c = true)
    (hnegtrans : ∀ a b c, P a → P b → P c →
      beats a c = true → beats a b = true ∨ beats b c = true)
    (hirr : ∀ a, P a → beats a a = false)
    (l : List Str) (hl : l ≠ [])
    (hkeys : ∀ v ∈ l, ∃ kv, key v = some kv ∧ P kv) :
    ∃ m km, pyMaxByOpt beats key l = some m ∧ m ∈ l ∧ key m = some km ∧ P km ∧
      ∀ x ∈ l, ∀ kx, key x = some kx → beats km kx = false := by
  rcases l with _ | ⟨x, xs⟩
  · exact absurd rfl hl
  · obtain ⟨kx, hkx, hPkx⟩ := hkeys x (List.mem_cons_self x xs)
    obtain ⟨m, km, hfold, hkm, hPkm, hmem, hnb, hall⟩ :=
      pyMaxByOpt_fold_spec beats key P htrans hnegtrans hirr xs x kx hkx hPkx
        (fun v hv => hkeys v (List.mem_cons_of_mem x hv))
    refine ⟨m, km, ?_, ?_, hkm, hPkm, ?_⟩
    · rw [pyMaxByOpt, hkx]
      dsimp only
      rw [hfold]
      rfl
    · rcases hmem with rfl | hm
      · exact List.mem_cons_self m xs
      · exact List.mem_cons_of_mem x hm
    · intro z hz kz hkz
      rcases List.mem_cons.mp hz with rfl | hz
      · rw [hkx] at hkz
        rw [← Option.some.inj hkz]
        exact hnb
      · exact hall z hz kz hkz

theorem pyMaxByOpt_perm_eq {κ : Type} (beats : κ → κ → Bool) (key : Str → Option κ)
    (P : κ → Prop) (eqv : κ → κ → Prop)
    (htrans : ∀ a b c, P a → P b → P c →
      beats a b = true → beats b c = true → beats a c = true)
    (hnegtrans : ∀ a b c, P a → P b → P c →
      beats a c = true → beats a b = true ∨ beats b c = true)
    (hirr : ∀ a, P a → beats a a = false)
    (hconn : ∀ a b, P a → P b → beats a b = false → beats b a = false → eqv a b)
    (l₁ l₂ : List Str) (hperm : l₁.Perm l₂)
    (hkeys : ∀ v ∈ l₁, ∃ kv, key v = some kv ∧ P kv)
    (hinj : ∀ v w, v ∈ l₁ → w ∈ l₁ → ∀ kv kw, key v = some kv → key w = some kw →
      eqv kv kw → v = w) :
    pyMaxByOpt beats key l₁ = pyMaxByOpt beats key l₂ := by
  rcases l₁ with _ | ⟨x, xs⟩
  · rw [hperm.nil_eq.symm]
  · have hne1 : (x :: xs) ≠ ([] : List Str) := by simp
    have hne2 : l₂ ≠ [] := by
      intro hc
      rw [hc] at hperm
      exact absurd hperm.symm.nil_eq (by simp)
    have hkeys2 : ∀ v ∈ l₂, ∃ kv, key v = some kv ∧ P kv :=
      fun v hv => hkeys v (hperm.mem_iff.mpr hv)
    obtain ⟨m1, k1, he1, hm1, hk1, hP1, hmax1⟩ :=
      pyMaxByOpt_spec beats key P htrans hnegtrans hirr (x :: xs) hne1 hkeys
    obtain ⟨m2, k2, he2, hm2, hk2, hP2, hmax2⟩ :=
      pyMaxByOpt_spec beats key P htrans hnegtrans hirr l₂ hne2 hkeys2
    have hm2mem : m2 ∈ x :: xs := hperm.mem_iff.mpr hm2
    have hb1 : beats k1 k2 = false := hmax1 m2 hm2mem k2 hk2
    have hb2 : beats k2 k1 = false := hmax2 m1 (hperm.mem_iff.mp hm1) k1 hk1
    have heqv : eqv k1 k2 := hconn k1 k2 hP1 hP2 hb1 hb2
    have : m1 = m2 := hinj m1 m2 hm1 hm2mem k1 k2 hk1 hk2 heqv
    rw [he1, he2, this]

/-- Claim C6 (amended): selectLatest is permutation-invariant only when the
comparison keys are injective on the version set — under the registry
comparator whenever all keys coerce (to prerelease-free versions) and no two
distinct strings share a coerced key, and under the legacy comparator
whenever no two distinct strings share a version tuple.  (With duplicate
keys, such as {"1.0", "1.0.0"}, Python max keeps the first maximal item and
the returned string depends on enumeration order.) -/
theorem c6_amended_selectLatest_perm_of_injective (l₁ l₂ : List Str) (hperm : l₁.Perm l₂) :
    ((∀ v ∈ l₁, ∃ cv, coerce v = some cv ∧ cv.prerelease = []) →
      (∀ v w, v ∈ l₁ → w ∈ l₁ → ∀ cv cw, coerce v = some cv → coerce w = some cw →
        cmpVer cv cw = .eq → v = w) →
      selectLatestRegistry l₁ = selectLatestRegistry l₂) ∧
    ((∀ v w, v ∈ l₁ → w ∈ l₁ →
        legacyVersionTuple v = legacyVersionTuple w → v = w) →
      selectLatestLegacy l₁ = selectLatestLegacy l₂) := by
  constructor
  · intro hkeys hinj
    refine pyMaxByOpt_perm_eq _ coerce (fun cv => cv.prerelease = [])
      (fun a b => cmpVer a b = .eq) ?_ ?_ ?_ ?_ l₁ l₂ hperm
      (fun v hv => hkeys v hv) hinj
    · intro a b c hPa hPb hPc hab hbc
      rw [decide_eq_true_eq] at hab hbc
      rw [decide_eq_true_eq]
      rw [cmpVer_plain_gt_iff hPb hPa] at hab
      rw [cmpVer_plain_gt_iff hPc hPb] at hbc
      rw [cmpVer_plain_gt_iff hPc hPa]
      omega
    · intro a b c hPa hPb hPc hac
      rw [decide_eq_true_eq] at hac
      rw [decide_eq_true_eq, decide_eq_true_eq]
      rw [cmpVer_plain_gt_iff hPc hPa] at hac
      rw [cmpVer_plain_gt_iff hPb hPa, cmpVer_plain_gt_iff hPc hPb]
      omega
    · intro a hPa
      rw [show (decide (cmpVer a a = Ordering.gt)) = false from by
        rw [decide_eq_false_iff_not]
        rw [cmpVer_plain_gt_iff hPa hPa]
        omega]
    · intro a b hPa hPb hab hba
      rw [decide_eq_false_iff_not] at hab hba
      rw [cmpVer_plain_gt_iff hPb hPa] at hab
      rw [cmpVer_plain_gt_iff hPa hPb] at hba
      rw [cmpVer_plain_eq_iff hPa hPb]
      omega
  · intro hinj
    refine pyMaxByOpt_perm_eq _ (fun v => some (legacyVersionTuple v))
      (fun _ => True) (fun a b => a = b) ?_ ?_ ?_ ?_ l₁ l₂ hperm
      (fun v _ => ⟨legacyVersionTuple v, rfl, trivial⟩) ?_
    · exact fun a b c _ _ _ hab hbc => pyListLt_trans hab hbc
    · intro a b c _ _ _ hac
      rcases pyListLt_trichotomy a b with h | h | h
      · exact Or.inl h
      · exact Or.inr (pyListLt_trans h hac)
      · exact Or.inr (h ▸ hac)
    · exact fun a _ => pyListLt_irrefl a
    · intro a b _ _ hab hba
      rcases pyListLt_trichotomy a b with h | h | h
      · rw [h] at hab
        exact Bool.noConfusion hab
      · rw [h] at hba
        exact Bool.noConfusion hba
      · exact h
    · intro v w hv hw kv kw hkv hkw heqv
      refine hinj v w hv hw ?_
      rw [Option.some.inj hkv, Option.some.inj hkw]
      exact heqv

/-- Claim C6 witness: two distinct-keyed version strings in both orders. -/
theorem c6_amended_selectLatest_perm_of_injective_witness :
    selectLatestRegistry ["1.0.0".data, "2.0.0".data] =
      selectLatestRegistry ["2.0.0".data, "1.0.0".data] ∧
    selectLatestLegacy ["1.0.0".data, "2.0.0".data] =
      selectLatestLegacy ["2.0.0".data, "1.0.0".data] := by
  have h := c6_amended_selectLatest_perm_of_injective ["1.0.0".data, "2.0.0".data]
    ["2.0.0".data, "1.0.0".data] (by decide)
  refine ⟨h.1 ?_ ?_, h.2 ?_⟩
  · intro v hv
    rcases List.mem_cons.mp hv with rfl | hv
    · exact ⟨⟨1, 0, 0, [], []⟩, by decide, rfl⟩
    rcases List.mem_cons.mp hv with rfl | hv
    · exact ⟨⟨2, 0, 0, [], []⟩, by decide, rfl⟩
    · simp at hv
  · intro v w hv hw cv cw hcv hcw heq
    rcases List.mem_cons.mp hv with rfl | hv
    · rcases List.mem_cons.mp hw with rfl | hw
      · rfl
      · rcases List.mem_cons.mp hw with rfl | hw
        · obtain rfl := Option.some.inj ((show coerce "1.0.0".data =
              some ⟨1, 0, 0, [], []⟩ from by decide).symm.trans hcv)
          obtain rfl := Option.some.inj ((show coerce "2.0.0".data =
              some ⟨2, 0, 0, [], []⟩ from by decide).symm.trans hcw)
          exact absurd heq (by decide)
        · simp at hw
    · rcases List.mem_cons.mp hv with rfl | hv
      · rcases List.mem_cons.mp hw with rfl | hw
        · obtain rfl := Option.some.inj ((show coerce "2.0.0".data =
              some ⟨2, 0, 0, [], []⟩ from by decide).symm.trans hcv)
          obtain rfl := Option.some.inj ((show coerce "1.0.0".data =
              some ⟨1, 0, 0, [], []⟩ from by decide).symm.trans hcw)
          exact absurd heq (by decide)
        · rcases List.mem_cons.mp hw with rfl | hw
          · rfl
          · simp at hw
      · simp at hv
  · intro v w hv hw heq
    rcases List.mem_cons.mp hv with rfl | hv
    · rcases List.mem_cons.mp hw with rfl | hw
      · rfl
      · rcases List.mem_cons.mp hw with rfl | hw
        · exact absurd heq (by decide)
        · simp at hw
    · rcases List.mem_cons.mp hv with rfl | hv
      · rcases List.mem_cons.mp hw with rfl | hw
        · exact absurd heq (by decide)
        · rcases List.mem_cons.mp hw with rfl | hw
          · rfl
          · simp at hw
      · simp at hv

/-! ## Claims C2 and C3 — range matching, amended -/

theorem splitOnChar_not_mem {c : Char} {s : Str} (h : c ∉ s) : splitOnChar c s = [s] := by
  induction s with
  | nil => rfl
  | cons a rest ih =>
    rw [List.mem_cons, not_or] at h
    obtain ⟨h1, h2⟩ := h
    have hac : ¬ a = c := fun he => h1 he.symm
    simp only [splitOnChar, if_neg hac]
    rw [ih h2]

theorem splitOnChar_append {c : Char} {x : Str} (y : Str) (h : c ∉ x) :
    splitOnChar c (x ++ c :: y) = x :: splitOnChar c y := by
  induction x with
  | nil => simp [splitOnChar]
  | cons a rest ih =>
    rw [List.mem_cons, not_or] at h
    obtain ⟨h1, h2⟩ := h
    have hac : ¬ a = c := fun he => h1 he.symm
    rw [List.cons_append]
    simp only [splitOnChar, if_neg hac]
    rw [ih h2]

theorem splitOnce_eq_some {c : Char} {r a b : Str} (h : splitOnce c r = some (a, b)) :
    r = a ++ c :: b ∧ c ∉ a := by
  induction r generalizing a b with
  | nil => simp [splitOnce] at h
  | cons d rest ih =>
    by_cases hd : d = c
    · simp only [splitOnce, if_pos hd] at h
      have h2 := Option.some.inj h
      rw [Prod.ext_iff] at h2
      obtain ⟨ha, hb⟩ := h2
      subst ha
      subst hb
      exact ⟨by rw [hd, List.nil_append], by simp⟩
    · simp only [splitOnce, if_neg hd] at h
      rcases hsp : splitOnce c rest with _ | ⟨a2, b2⟩
      · rw [hsp] at h
        simp at h
      · rw [hsp] at h
        rw [show Option.map (fun p : Str × Str => (d :: p.1, p.2)) (some (a2, b2)) =
          some (d :: a2, b2) from rfl] at h
        have h2 := Option.some.inj h
        rw [Prod.ext_iff] at h2
        obtain ⟨ha, hb⟩ := h2
        simp only at ha hb
        subst ha
        subst hb
        obtain ⟨hr, hna⟩ := ih hsp
        constructor
        · rw [List.cons_append, hr]
        · rw [List.mem_cons, not_or]
          exact ⟨fun he => hd he.symm, hna⟩

theorem parseSpecTok_head {r : Str} {t : SpecTok} (hp : parseSpecTok r = some t) :
    ∃ c rest, r = c :: rest ∧ c ≠ '=' ∧ c ≠ ',' ∧ c ≠ '<' := by
  rcases r with _ | ⟨c, rest⟩
  · exact Option.noConfusion hp
  · refine ⟨c, rest, rfl, ?_, ?_, ?_⟩
    · rintro rfl
      exact Option.noConfusion hp
    · rintro rfl
      exact Option.noConfusion hp
    · rintro rfl
      exact Option.noConfusion hp

theorem plainTok_cases {t : SpecTok} (h : plainTok t) :
    (∃ maj, t = ⟨some maj, none, none, none, none⟩) ∨
    (∃ maj minr, t = ⟨some maj, some (some minr), none, none, none⟩) ∨
    (∃ maj minr pat, t = ⟨some maj, some (some minr), some (some pat), none, none⟩) := by
  obtain ⟨h1, h2, h3, h4, h5, h6⟩ := h
  rcases t with ⟨maj, mn, pt, pre, bld⟩
  rcases maj with _ | maj
  · exact absurd rfl h1
  rcases pre with _ | pre
  · rcases bld with _ | bld
    · rcases mn with _ | mn
      · rcases pt with _ | pt
        · exact Or.inl ⟨maj, rfl⟩
        · exact Option.noConfusion (h6 rfl)
      · rcases mn with _ | minr
        · exact absurd rfl h2
        · rcases pt with _ | pt
          · exact Or.inr (Or.inl ⟨maj, minr, rfl⟩)
          · rcases pt with _ | pat
            · exact absurd rfl h3
            · exact Or.inr (Or.inr ⟨maj, minr, pat, rfl⟩)
    · simp at h5
  · simp at h4

theorem tokPad_prerelease (t : SpecTok) : (tokPad t).prerelease = [] := rfl

theorem tokPad_build_nil (t : SpecTok) : (tokPad t).build = [] := rfl

theorem tokNext_prerelease_build (t : SpecTok) :
    (tokNext t).prerelease = [] ∧ (tokNext t).build = [] := by
  rcases t with ⟨maj, mn, pt, pre, bld⟩
  rcases mn with _ | mn
  · exact ⟨rfl, rfl⟩
  · rcases mn with _ | minr
    · exact ⟨rfl, rfl⟩
    · rcases pt with _ | pt
      · exact ⟨rfl, rfl⟩
      · rcases pt with _ | pat
        · exact ⟨rfl, rfl⟩
        · exact ⟨rfl, rfl⟩

theorem parseBlock_gte {a : Str} {ta : SpecTok} (hpa : parseSpecTok a = some ta)
    (hta : plainTok ta) :
    parseBlock ('>' :: '=' :: a) = some (.atom .gte (tokPad ta)) := by
  have h1 : parseBlock ('>' :: '=' :: a) = (parseSpecTok a).bind (buildClause .gte) := rfl
  rw [h1, hpa]
  rcases plainTok_cases hta with ⟨maj, rfl⟩ | ⟨maj, minr, rfl⟩ | ⟨maj, minr, pat, rfl⟩ <;> rfl

theorem parseBlock_lte {b : Str} {tb : SpecTok} (hpb : parseSpecTok b = some tb)
    (htb : plainTok tb) :
    parseBlock ('<' :: '=' :: b) =
      some (if tokIsFull tb then Clause.atom .lte (tokPad tb)
        else Clause.atom .lt (tokNext tb)) := by
  have h1 : parseBlock ('<' :: '=' :: b) = (parseSpecTok b).bind (buildClause .lte) := rfl
  rw [h1, hpb]
  rcases plainTok_cases htb with ⟨maj, rfl⟩ | ⟨maj, minr, rfl⟩ | ⟨maj, minr, pat, rfl⟩ <;> rfl

theorem parseBlock_eq_tok {r : Str} {t : SpecTok} (hp : parseSpecTok r = some t)
    (ht : plainTok t) :
    parseBlock ('=' :: r) =
      some (if tokIsFull t then Clause.atom .eq (tokPad t)
        else Clause.and2 (.atom .gte (tokPad t)) (.atom .lt (tokNext t))) := by
  obtain ⟨c, rest, rfl, hc, _, _⟩ := parseSpecTok_head hp
  have h0 : parseSpecOp ('=' :: c :: rest) = (.eq, c :: rest) := by
    simp [parseSpecOp, hc]
  have h1 : parseBlock ('=' :: c :: rest) =
      (parseSpecTok (c :: rest)).bind (buildClause .eq) := by
    simp only [parseBlock, h0]
  rw [h1, hp]
  rcases plainTok_cases ht with ⟨maj, rfl⟩ | ⟨maj, minr, rfl⟩ | ⟨maj, minr, pat, rfl⟩ <;> rfl

theorem cmpVer_drop_build (v w : PyVersion) :
    cmpVer ⟨v.major, v.minor, v.patch, v.prerelease, []⟩ w = cmpVer v w := rfl

theorem rangeMatch_gte_plain {target v : PyVersion} (htb : target.build = [])
    (ht : target.prerelease = []) (hv : v.prerelease = []) :
    (rangeMatch .gte target v = true ↔ cmpVer v target ≠ .lt) := by
  simp only [rangeMatch, htb, eq_self_iff_true, if_true]
  rw [cmpVer_drop_build]
  rw [decide_eq_true_eq]
  exact ordering_gt_or_eq_iff _

theorem rangeMatch_lte_plain {target v : PyVersion} (htb : target.build = [])
    (ht : target.prerelease = []) (hv : v.prerelease = []) :
    (rangeMatch .lte target v = true ↔ cmpVer v target ≠ .gt) := by
  simp only [rangeMatch, htb, eq_self_iff_true, if_true]
  rw [cmpVer_drop_build]
  rw [decide_eq_true_eq]
  exact ordering_lt_or_eq_iff _

theorem rangeMatch_lt_plain {target v : PyVersion} (htb : target.build = [])
    (ht : target.prerelease = []) (hv : v.prerelease = []) :
    (rangeMatch .lt target v = true ↔ cmpVer v target = .lt) := by
  simp only [rangeMatch, htb, eq_self_iff_true, if_true]
  rw [cmpVer_drop_build]
  rw [decide_eq_true_eq]

theorem rangeMatch_eq_plain {target v : PyVersion} (htb : target.build = [])
    (ht : target.prerelease = []) (hv : v.prerelease = []) :
    (rangeMatch .eq target v = true ↔
      (v.major = target.major ∧ v.minor = target.minor ∧ v.patch = target.patch)) := by
  rcases target with ⟨tM, tm, tp, tpre, tbl⟩
  simp only at htb ht
  subst htb
  subst ht
  show (decide ((⟨v.major, v.minor, v.patch, v.prerelease, []⟩ : PyVersion) =
      ⟨tM, tm, tp, [], []⟩) = true) ↔ _
  rw [decide_eq_true_eq]
  simp [PyVersion.mk.injEq, hv]

/-- Claim C2 (amended): for a hyphenated range whose start and end are plain
numeric tokens, and a version coercing without prerelease, matching is the
closed interval in the SimpleSpec sense — the lower bound is the start
padded with zeros, but a PARTIAL end token widens to a strict bound below
the next major/minor version rather than the end coerced with zeros.  The
three concrete example evaluations of the claim all hold. -/
theorem c2_amended_hyphen_interval (v r a b : Str) (cv : PyVersion) (ta tb : SpecTok)
    (hsplit : splitOnce '-' r = some (a, b))
    (hca : ',' ∉ a) (hcb : ',' ∉ b)
    (hpa : parseSpecTok a = some ta) (hpb : parseSpecTok b = some tb)
    (hta : plainTok ta) (htb : plainTok tb)
    (hcv : coerce v = some cv) (hpre : cv.prerelease = []) :
    (versionInRange v r = true ↔
      (cmpVer cv (tokPad ta) ≠ .lt ∧
        (if tokIsFull tb then cmpVer cv (tokPad tb) ≠ .gt
         else cmpVer cv (tokNext tb) = .lt))) ∧
    versionInRange "1.0.2".data "1-1.0.2".data = true ∧
    versionInRange "1.0.4".data "1-1.0.2".data = false ∧
    versionInRange "1.0.4".data "1.0.3-1".data = true := by
  refine ⟨?_, by decide, by decide, by decide⟩
  obtain ⟨rfl, hnmem⟩ := splitOnce_eq_some hsplit
  simp only [versionInRange, hcv, hsplit]
  have hblocks : splitOnChar ',' (('>' :: '=' :: a) ++ (',' :: '<' :: '=' :: b)) =
      [('>' :: '=' :: a), ('<' :: '=' :: b)] := by
    rw [show ('>' :: '=' :: a) ++ (',' :: '<' :: '=' :: b) =
        ('>' :: '=' :: a) ++ ',' :: ('<' :: '=' :: b) from rfl]
    rw [splitOnChar_append _ (by simp [hca])]
    rw [splitOnChar_not_mem (by simp [hcb])]
  have hspec : simpleSpec (('>' :: '=' :: a) ++ (',' :: '<' :: '=' :: b)) =
      some [Clause.atom .gte (tokPad ta),
        if tokIsFull tb then Clause.atom .lte (tokPad tb)
        else Clause.atom .lt (tokNext tb)] := by
    rw [simpleSpec, hblocks]
    rw [List.mapM_cons, List.mapM_cons, List.mapM_nil]
    rw [parseBlock_gte hpa hta, parseBlock_lte hpb htb]
    rfl
  rw [hspec]
  simp only [specMatch, List.all_cons, List.all_nil, Bool.and_true, Bool.and_eq_true]
  rw [show clauseMatch (Clause.atom .gte (tokPad ta)) cv =
      rangeMatch .gte (tokPad ta) cv from rfl]
  rw [rangeMatch_gte_plain rfl rfl hpre]
  by_cases hfull : tokIsFull tb = true
  · simp only [hfull, if_pos rfl, if_true]
    rw [show clauseMatch (Clause.atom .lte (tokPad tb)) cv =
        rangeMatch .lte (tokPad tb) cv from rfl]
    rw [rangeMatch_lte_plain rfl rfl hpre]
  · simp only [Bool.not_eq_true] at hfull
    simp only [hfull, Bool.false_eq_true, if_false]
    rw [show clauseMatch (Clause.atom .lt (tokNext tb)) cv =
        rangeMatch .lt (tokNext tb) cv from rfl]
    rw [rangeMatch_lt_plain (tokNext_prerelease_build tb).2
      (tokNext_prerelease_build tb).1 hpre]

/-- Claim C2 witness: the amended interval characterization applied at
version 1.0.4 and range token 1.0.3-1. -/
theorem c2_amended_hyphen_interval_witness :
    (versionInRange "1.0.4".data "1.0.3-1".data = true ↔
      (cmpVer ⟨1, 0, 4, [], []⟩ (tokPad ⟨some 1, some (some 0), some (some 3), none, none⟩) ≠ .lt ∧
        (if tokIsFull ⟨some 1, none, none, none, none⟩ then
          cmpVer ⟨1, 0, 4, [], []⟩ (tokPad ⟨some 1, none, none, none, none⟩) ≠ .gt
         else cmpVer ⟨1, 0, 4, [], []⟩ (tokNext ⟨some 1, none, none, none, none⟩) = .lt))) ∧
    versionInRange "1.0.2".data "1-1.0.2".data = true := by
  have h := c2_amended_hyphen_interval "1.0.4".data "1.0.3-1".data "1.0.3".data "1".data
    ⟨1, 0, 4, [], []⟩ ⟨some 1, some (some 0), some (some 3), none, none⟩
    ⟨some 1, none, none, none, none⟩
    (by decide) (by decide) (by decide) (by decide) (by decide)
    (by constructor <;> simp) (by constructor <;> simp)
    (by decide) rfl
  exact ⟨h.1, h.2.1⟩

/-- Claim C3 (amended): a hyphen-free range token that is a plain numeric
token is an exact match only when FULL (three components): then it requires
equality of the coerced triples; a partial token (one or two components)
instead matches the whole implied range from the zero-padded token up to —
excluding — the next major/minor version.  The six concrete example
evaluations of the claim all hold. -/
theorem c3_amended_exact_token (v r : Str) (cv : PyVersion) (t : SpecTok)
    (hnos : splitOnce '-' r = none)
    (hc : ',' ∉ r)
    (hp : parseSpecTok r = some t) (ht : plainTok t)
    (hcv : coerce v = some cv) (hpre : cv.prerelease = []) :
    (versionInRange v r = true ↔
      (if tokIsFull t then
        cv.major = (tokPad t).major ∧ cv.minor = (tokPad t).minor ∧
          cv.patch = (tokPad t).patch
       else cmpVer cv (tokPad t) ≠ .lt ∧ cmpVer cv (tokNext t) = .lt)) ∧
    versionInRange "0.22.6".data "0".data = true ∧
    versionInRange "0.22.6".data "0.22-0".data = true ∧
    versionInRange "0.22.6".data "0-0.12".data = false ∧
    versionInRange "2.4.0".data "0-2".data = true ∧
    versionInRange "2.4.0".data "0-2.2".data = false ∧
    versionInRange "3.0.0".data "0-2".data = false := by
  refine ⟨?_, by decide, by decide, by decide, by decide, by decide, by decide⟩
  simp only [versionInRange, hcv, hnos]
  have hspec : simpleSpec ('=' :: r) =
      some [if tokIsFull t then Clause.atom .eq (tokPad t)
        else Clause.and2 (.atom .gte (tokPad t)) (.atom .lt (tokNext t))] := by
    rw [simpleSpec]
    rw [splitOnChar_not_mem (by simp [hc])]
    rw [List.mapM_cons, List.mapM_nil]
    rw [parseBlock_eq_tok hp ht]
    rfl
  rw [hspec]
  simp only [specMatch, List.all_cons, List.all_nil, Bool.and_true]
  by_cases hfull : tokIsFull t = true
  · simp only [hfull, if_pos rfl, if_true]
    rw [show clauseMatch (Clause.atom .eq (tokPad t)) cv =
        rangeMatch .eq (tokPad t) cv from rfl]
    exact rangeMatch_eq_plain rfl rfl hpre
  · simp only [Bool.not_eq_true] at hfull
    simp only [hfull, Bool.false_eq_true, if_false]
    rw [show clauseMatch (Clause.and2 (.atom .gte (tokPad t)) (.atom .lt (tokNext t))) cv =
        (rangeMatch .gte (tokPad t) cv && rangeMatch .lt (tokNext t) cv) from rfl]
    rw [Bool.and_eq_true]
    rw [rangeMatch_gte_plain rfl rfl hpre]
    rw [rangeMatch_lt_plain (tokNext_prerelease_build t).2
      (tokNext_prerelease_build t).1 hpre]

/-- Claim C3 witness: the amended exact-token characterization applied at
version 0.22.6 and the partial token 0. -/
theorem c3_amended_exact_token_witness :
    (versionInRange "0.22.6".data "0".data = true ↔
      (if tokIsFull ⟨some 0, none, none, none, none⟩ then
        (⟨0, 22, 6, [], []⟩ : PyVersion).major = (tokPad ⟨some 0, none, none, none, none⟩).major ∧
          (⟨0, 22, 6, [], []⟩ : PyVersion).minor = (tokPad ⟨some 0, none, none, none, none⟩).minor ∧
          (⟨0, 22, 6, [], []⟩ : PyVersion).patch = (tokPad ⟨some 0, none, none, none, none⟩).patch
       else cmpVer ⟨0, 22, 6, [], []⟩ (tokPad ⟨some 0, none, none, none, none⟩) ≠ .lt ∧
         cmpVer ⟨0, 22, 6, [], []⟩ (tokNext ⟨some 0, none, none, none, none⟩) = .lt)) ∧
    versionInRange "2.4.0".data "0-2".data = true := by
  have h := c3_amended_exact_token "0.22.6".data "0".data ⟨0, 22, 6, [], []⟩
    ⟨some 0, none, none, none, none⟩
    (by decide) (by decide) (by decide) (by constructor <;> simp) (by decide) rfl
  exact ⟨h.1, h.2.2.2.2.1⟩

theorem mem_rowNonzero {A : AdjMatrix} {i v : Nat} :
    v ∈ rowNonzero A i ↔ (i, v) ∈ A.entries := by
  simp only [rowNonzero, Finset.mem_image, Finset.mem_filter]
  constructor
  · rintro ⟨⟨a, b⟩, ⟨hm, he⟩, rfl⟩
    dsimp only at he ⊢
    rwa [he] at hm
  · intro h
    exact ⟨(i, v), ⟨h, rfl⟩, rfl⟩

theorem mem_rowCols {A : AdjMatrix} {i v : Nat} :
    v ∈ rowCols A i ↔ v ∈ rowNonzero A i := Finset.mem_sort _

theorem rowNonzero_subset_candSet (A : AdjMatrix) (i : Nat) :
    rowNonzero A i ⊆ candSet A := by
  intro v hv
  rw [mem_rowNonzero] at hv
  exact Finset.mem_image.mpr ⟨(i, v), hv, rfl⟩

theorem length_filter_rowCols (A : AdjMatrix) (i : Nat) (deps : Finset Nat) :
    ((rowCols A i).filter (fun dep => dep ∉ deps)).length =
      ((rowNonzero A i) \ deps).card := by
  have h0 : ((rowCols A i : List Nat) : Multiset Nat) = (rowNonzero A i).val :=
    Finset.sort_eq _ _
  have h1 : ((rowCols A i).filter (fun dep => dep ∉ deps)).length =
      Multiset.card (Multiset.filter (fun dep => dep ∉ deps)
        ((rowCols A i : List Nat) : Multiset Nat)) := by
    rw [Multiset.filter_coe, Multiset.coe_card]
  rw [h1, h0]
  rw [Finset.sdiff_eq_filter]
  rfl

theorem bfsMeasure_step (A : AdjMatrix) (current : Nat) (rest : List Nat)
    (deps : Finset Nat) :
    bfsMeasure A (rest ++ (rowCols A current).filter (fun dep => dep ∉ deps))
      (deps ∪ rowNonzero A current) + 1 ≤ bfsMeasure A (current :: rest) deps := by
  simp only [bfsMeasure, List.length_append, List.length_cons]
  rw [length_filter_rowCols]
  have hsub : rowNonzero A current \ deps ⊆ candSet A \ deps := by
    intro x hx
    rw [Finset.mem_sdiff] at hx ⊢
    exact ⟨rowNonzero_subset_candSet A current hx.1, hx.2⟩
  have hcard : (candSet A \ (deps ∪ rowNonzero A current)).card +
      (rowNonzero A current \ deps).card = (candSet A \ deps).card := by
    have heq : candSet A \ (deps ∪ rowNonzero A current) =
        (candSet A \ deps) \ (rowNonzero A current \ deps) := by
      ext x
      simp only [Finset.mem_sdiff, Finset.mem_union]
      tauto
    rw [heq]
    exact Finset.card_sdiff_add_card_eq_card hsub
  omega

theorem bfsAux_subset (A : AdjMatrix) :
    ∀ fuel queue deps, deps ⊆ bfsAux A fuel queue deps := by
  intro fuel
  induction fuel with
  | zero =>
    intro queue deps x hx
    simpa [bfsAux] using hx
  | succ f ih =>
    intro queue deps
    rcases queue with _ | ⟨c, rest⟩
    · intro x hx
      simpa [bfsAux] using hx
    · by_cases hc : c < A.n
      · simp only [bfsAux, if_pos hc]
        exact fun x hx => ih _ _ (Finset.mem_union_left _ hx)
      · simp only [bfsAux, if_neg hc]
        exact ih _ _

theorem bfsAux_sound (A : AdjMatrix) (P : Nat → Prop)
    (hstep : ∀ u v, P u → u < A.n → (u, v) ∈ A.entries → P v) :
    ∀ fuel queue deps, (∀ v ∈ deps, P v) → (∀ u ∈ queue, P u) →
      ∀ v ∈ bfsAux A fuel queue deps, P v := by
  intro fuel
  induction fuel with
  | zero =>
    intro queue deps hd hq v hv
    exact hd v (by simpa [bfsAux] using hv)
  | succ f ih =>
    intro queue deps hd hq v hv
    rcases queue with _ | ⟨c, rest⟩
    · exact hd v (by simpa [bfsAux] using hv)
    · by_cases hc : c < A.n
      · simp only [bfsAux, if_pos hc] at hv
        refine ih _ _ ?_ ?_ v hv
        · intro w hw
          rcases Finset.mem_union.mp hw with h1 | h1
          · exact hd w h1
          · exact hstep c w (hq c (List.mem_cons_self c rest)) hc (mem_rowNonzero.mp h1)
        · intro u hu
          rcases List.mem_append.mp hu with h1 | h1
          · exact hq u (List.mem_cons_of_mem _ h1)
          · have h2 := List.mem_filter.mp h1
            have hmem : u ∈ rowNonzero A c := mem_rowCols.mp h2.1
            exact hstep c u (hq c (List.mem_cons_self c rest)) hc (mem_rowNonzero.mp hmem)
      · simp only [bfsAux, if_neg hc] at hv
        exact ih _ _ hd (fun u hu => hq u (List.mem_cons_of_mem _ hu)) v hv

theorem bfsAux_closed (A : AdjMatrix) :
    ∀ fuel queue deps,
      bfsMeasure A queue deps ≤ fuel →
      (∀ u ∈ deps, u < A.n → u ∈ queue ∨ rowNonzero A u ⊆ deps) →
      ∀ u ∈ bfsAux A fuel queue deps, u < A.n →
        rowNonzero A u ⊆ bfsAux A fuel queue deps := by
  intro fuel
  induction fuel with
  | zero =>
    intro queue deps hf hinv u hu hun
    have hq : queue = [] := by
      rcases queue with _ | ⟨c, r⟩
      · rfl
      · simp only [bfsMeasure, List.length_cons] at hf
        omega
    subst hq
    simp only [bfsAux] at hu ⊢
    rcases hinv u hu hun with h | h
    · exact absurd h (List.not_mem_nil u)
    · exact h
  | succ f ih =>
    intro queue deps hf hinv
    rcases queue with _ | ⟨c, rest⟩
    · simp only [bfsAux]
      intro u hu hun
      rcases hinv u hu hun with h | h
      · exact absurd h (List.not_mem_nil u)
      · exact h
    · by_cases hc : c < A.n
      · simp only [bfsAux, if_pos hc]
        apply ih
        · have hstep := bfsMeasure_step A c rest deps
          omega
        · intro u hu hun
          by_cases hud : u ∈ deps
          · rcases hinv u hud hun with h2 | h2
            · rcases List.mem_cons.mp h2 with h4 | h3
              · subst h4
                exact Or.inr (fun x hx => Finset.mem_union_right _ hx)
              · exact Or.inl (List.mem_append_left _ h3)
            · exact Or.inr (fun x hx => Finset.mem_union_left _ (h2 hx))
          · have h1 : u ∈ rowNonzero A c := by
              rcases Finset.mem_union.mp hu with h | h
              · exact absurd h hud
              · exact h
            refine Or.inl (List.mem_append_right _ ?_)
            rw [List.mem_filter]
            exact ⟨mem_rowCols.mpr h1, by simpa using hud⟩
      · simp only [bfsAux, if_neg hc]
        apply ih
        · simp only [bfsMeasure, List.length_cons] at hf ⊢
          omega
        · intro u hu hun
          rcases hinv u hu hun with h2 | h2
          · rcases List.mem_cons.mp h2 with h4 | h3
            · subst h4
              exact absurd hun hc
            · exact Or.inl h3
          · exact Or.inr h2

theorem computeRecursiveDependencies_mem {A : AdjMatrix} {s v : Nat} (hs : s < A.n) :
    v ∈ computeRecursiveDependencies A s ↔ Relation.TransGen (stepRel A) s v := by
  rw [computeRecursiveDependencies, if_neg (Nat.not_le.mpr hs)]
  constructor
  · intro hv
    refine bfsAux_sound A (Relation.TransGen (stepRel A) s) ?_ _ _ _ ?_ ?_ v hv
    · intro u w hu hun hw
      exact hu.tail ⟨hun, hw⟩
    · intro w hw
      exact Relation.TransGen.single ⟨hs, mem_rowNonzero.mp hw⟩
    · intro u hu
      exact Relation.TransGen.single ⟨hs, mem_rowNonzero.mp (mem_rowCols.mp hu)⟩
  · intro hv
    have hfuel : bfsMeasure A (rowCols A s) (rowNonzero A s) ≤ bfsFuel A := by
      have h1 : (rowCols A s).length = (rowNonzero A s).card := Finset.length_sort _
      have h2 : (candSet A \ rowNonzero A s).card + (rowNonzero A s).card =
          (candSet A).card :=
        Finset.card_sdiff_add_card_eq_card (rowNonzero_subset_candSet A s)
      have h3 : (candSet A).card ≤ A.entries.card := Finset.card_image_le
      simp only [bfsMeasure, bfsFuel]
      omega
    have hinv : ∀ u ∈ rowNonzero A s, u < A.n →
        u ∈ rowCols A s ∨ rowNonzero A u ⊆ rowNonzero A s := by
      intro u hu _
      exact Or.inl (mem_rowCols.mpr hu)
    have hclosed := bfsAux_closed A (bfsFuel A) (rowCols A s) (rowNonzero A s) hfuel hinv
    induction hv with
    | single h => exact bfsAux_subset A _ _ _ (mem_rowNonzero.mpr h.2)
    | tail h1 h2 ih => exact hclosed _ ih h2.1 (mem_rowNonzero.mpr h2.2)

/-- Claim C8: the closure is monotone in the edge set for a fixed shape and
start node (adding edges never shrinks the result), a start index at or
beyond the bound yields the empty set, and a queued index at or beyond the
bound is skipped — treated as having no out-edges — rather than failing. -/
theorem c8_closure_monotone_and_index_safe (A B : AdjMatrix) (s : Nat)
    (hn : A.n = B.n) (hsub : A.entries ⊆ B.entries) :
    computeRecursiveDependencies A s ⊆ computeRecursiveDependencies B s ∧
    (A.n ≤ s → computeRecursiveDependencies A s = ∅) ∧
    (∀ fuel current rest deps, A.n ≤ current →
      bfsAux A (fuel + 1) (current :: rest) deps = bfsAux A fuel rest deps) := by
  refine ⟨?_, ?_, ?_⟩
  · by_cases hs : A.n ≤ s
    · rw [computeRecursiveDependencies, if_pos hs]
      exact Finset.empty_subset _
    · push_neg at hs
      intro v hv
      rw [computeRecursiveDependencies_mem hs] at hv
      rw [computeRecursiveDependencies_mem (hn ▸ hs)]
      exact Relation.TransGen.mono (fun u w hw => ⟨hn ▸ hw.1, hsub hw.2⟩) hv
  · intro hs
    rw [computeRecursiveDependencies, if_pos hs]
  · intro fuel current rest deps hcur
    simp only [bfsAux, if_neg (Nat.not_lt.mpr hcur)]

/-- Claim C8 witness: on the two-node matrices whose edge sets are (0,1)
alone versus (0,1) together with (1,0), the subset hypothesis holds and the
closure from node 0 of the smaller matrix is contained in that of the
larger. -/
theorem c8_closure_monotone_and_index_safe_witness :
    (⟨2, {(0, 1)}⟩ : AdjMatrix).entries ⊆ ({(0, 1), (1, 0)} : Finset (Nat × Nat)) ∧
    computeRecursiveDependencies ⟨2, {(0, 1)}⟩ 0 ⊆
      computeRecursiveDependencies ⟨2, {(0, 1), (1, 0)}⟩ 0 := by
  refine ⟨by decide, ?_⟩
  exact (c8_closure_monotone_and_index_safe ⟨2, {(0, 1)}⟩ ⟨2, {(0, 1), (1, 0)}⟩ 0
    rfl (by decide)).1

end PkgEvo
